import Mathlib

/-!
Verification development for CredExtractor (src/CredExtractor.py).

The Python source is shallowly embedded as executable Lean definitions:

* `CREDENTIAL_PATTERN` (the regex
  `(https?://[^\s:/]+(?:\:\d+)?(?:/[^\s]*)?):([^:/\s]+):([^/\s]+)` with
  `re.IGNORECASE`, applied by `re.search`) is hand-compiled into a
  backtracking matcher over `List Char`.  Greedy quantifiers are modelled
  by trying the longest candidate first (`runSplits` returns splits of the
  maximal character-class run, longest first); alternation and optional
  groups try the consuming branch first; `re.search` tries start positions
  left to right.  Character classes follow the ASCII behaviour of the
  Python pattern (`\s` is the ASCII whitespace set, `\d` the ASCII digits).
* `search_keywords_in_file` is embedded with the file abstracted as a map
  from encoding name to the outcome of one full decode attempt: either the
  list of decoded lines, a decode error after yielding a prefix of lines
  (a `UnicodeDecodeError` raised mid iteration), or any other exception.
* `save_results` and the scanning loop of `main` are embedded as pure
  functions producing the serialized output values.
-/

/-! ## Character classes of the pattern (ASCII semantics of `\s`, `\d`) -/

/-- Python regex `\s` on ASCII text: space, tab, newline, carriage return,
vertical tab, form feed. -/
def pySpace (c : Char) : Bool :=
  c = ' ' || c = '\t' || c = '\n' || c = '\r' || c = '\x0b' || c = '\x0c'

/-- The class `[^\s:/]` of the host part of the URL group. -/
def hostChar (c : Char) : Bool :=
  !(pySpace c) && !(c = ':') && !(c = '/')

/-- The class `[^:/\s]` of the username group (same character set as
`hostChar`). -/
def userChar (c : Char) : Bool :=
  !(pySpace c) && !(c = ':') && !(c = '/')

/-- The class `[^/\s]` of the password group: a colon is allowed. -/
def passChar (c : Char) : Bool :=
  !(pySpace c) && !(c = '/')

/-- The class `[^\s]` of the optional path part of the URL group. -/
def pathChar (c : Char) : Bool :=
  !(pySpace c)

/-! ## Greedy quantifier engine -/

/-- All ways a greedy character-class quantifier can split the input:
every prefix of the maximal run of characters satisfying `p`, paired with
the corresponding remainder, longest prefix first.  This is the candidate
order a backtracking regex engine tries for `[class]*`. -/
def runSplits (p : Char → Bool) : List Char → List (List Char × List Char)
  | [] => [([], [])]
  | c :: cs =>
    if p c then
      ((runSplits p cs).map fun pr => (c :: pr.1, pr.2)) ++ [([], c :: cs)]
    else
      [([], c :: cs)]

/-- First success of `f` over a candidate list: the backtracking search
order. -/
def firstSome (f : α → Option β) : List α → Option β
  | [] => none
  | a :: l =>
    match f a with
    | some b => some b
    | none => firstSome f l

/-! ## The hand-compiled matcher for `CREDENTIAL_PATTERN`

A successful match returns the three capture groups
(url, username, password), each as the exact characters matched. -/

/-- `:([^:/\s]+):([^/\s]+)` — the tail of the pattern after the URL group.
`url` is the already-captured first group. -/
def tryTail (url : List Char) (s : List Char) :
    Option (List Char × List Char × List Char) :=
  match s with
  | ':' :: s1 =>
    firstSome
      (fun pr =>
        if pr.1.isEmpty then none
        else
          match pr.2 with
          | ':' :: s2 =>
            firstSome
              (fun qr =>
                if qr.1.isEmpty then none else some (url, pr.1, qr.1))
              (runSplits passChar s2)
          | _ => none)
      (runSplits userChar s1)
  | _ => none

/-- `(?:/[^\s]*)?` — the optional path part of the URL group; the
consuming branch is tried first (greedy `?`). -/
def tryPath (url : List Char) (s : List Char) :
    Option (List Char × List Char × List Char) :=
  match s with
  | '/' :: s1 =>
    match
      firstSome (fun pr => tryTail (url ++ '/' :: pr.1) pr.2)
        (runSplits pathChar s1) with
    | some r => some r
    | none => tryTail url ('/' :: s1)
  | _ => tryTail url s

/-- `(?:\:\d+)?` — the optional port part of the URL group; the consuming
branch is tried first (greedy `?`). -/
def tryPort (url : List Char) (s : List Char) :
    Option (List Char × List Char × List Char) :=
  match s with
  | ':' :: s1 =>
    match
      firstSome
        (fun pr =>
          if pr.1.isEmpty then none else tryPath (url ++ ':' :: pr.1) pr.2)
        (runSplits Char.isDigit s1) with
    | some r => some r
    | none => tryPath url (':' :: s1)
  | _ => tryPath url s

/-- `[^\s:/]+` — the host part of the URL group, `scheme` being the
characters matched so far by `https?://`. -/
def tryHost (scheme : List Char) (s : List Char) :
    Option (List Char × List Char × List Char) :=
  firstSome
    (fun pr =>
      if pr.1.isEmpty then none else tryPort (scheme ++ pr.1) pr.2)
    (runSplits hostChar s)

/-- `://` after the scheme letters. -/
def matchSlashes (scheme : List Char) (s : List Char) :
    Option (List Char × List Char × List Char) :=
  match s with
  | ':' :: '/' :: '/' :: s1 => tryHost (scheme ++ [':', '/', '/']) s1
  | _ => none

/-- Attempt the whole pattern at one start position: `https?` is matched
case-insensitively (`re.IGNORECASE`), the optional `s` greedily. -/
def matchAt (s : List Char) : Option (List Char × List Char × List Char) :=
  match s with
  | c1 :: c2 :: c3 :: c4 :: rest =>
    if c1.toLower = 'h' ∧ c2.toLower = 't' ∧ c3.toLower = 't' ∧
        c4.toLower = 'p' then
      match rest with
      | c5 :: rest1 =>
        if c5.toLower = 's' then
          match matchSlashes [c1, c2, c3, c4, c5] rest1 with
          | some r => some r
          | none => matchSlashes [c1, c2, c3, c4] rest
        else matchSlashes [c1, c2, c3, c4] rest
      | [] => none
    else none
  | _ => none

/-- `re.search`: try each start position left to right, return the first
match. -/
def searchCredL : List Char → Option (List Char × List Char × List Char)
  | [] => none
  | c :: cs =>
    match matchAt (c :: cs) with
    | some r => some r
    | none => searchCredL cs

/-- `CREDENTIAL_PATTERN.search(line)` followed by `match.groups()`. -/
def searchCred (line : String) : Option (String × String × String) :=
  (searchCredL line.data).map fun t => (t.1.asString, t.2.1.asString, t.2.2.asString)

/-! ## Records and the keyword filter -/

/-- One element of the result list built by the scanner.  `matchRec`
models the dict with exactly the keys url, username, password, source,
line; `errorRec` models the dict with exactly the keys error, source. -/
inductive Rec where
  | matchRec (url username password source : String) (line : Nat)
  | errorRec (error source : String)
deriving DecidableEq

/-- True on the match-record constructor. -/
def Rec.isMatchRec : Rec → Bool
  | .matchRec _ _ _ _ _ => true
  | .errorRec _ _ => false

/-- True on the error-record constructor. -/
def Rec.isErrorRec : Rec → Bool
  | .matchRec _ _ _ _ _ => false
  | .errorRec _ _ => true

/-- Python list/str membership test `needle in hay` restricted to the
prefix position: `isPrefixList n h` is true when `n` is a prefix of `h`. -/
def isPrefixList : List Char → List Char → Bool
  | [], _ => true
  | _ :: _, [] => false
  | c :: n, d :: h => c = d && isPrefixList n h

/-- Python substring test `needle in hay` on character lists. -/
def isSubstr (n : List Char) : List Char → Bool
  | [] => isPrefixList n []
  | d :: h => isPrefixList n (d :: h) || isSubstr n h

/-- Python `str.lower()` on ASCII text. -/
def lowerL (s : List Char) : List Char :=
  s.map Char.toLower

/-- `any(keyword.lower() in url.lower() for keyword in keywords)`. -/
def keywordHit (keywords : List String) (url : String) : Bool :=
  keywords.any fun k => isSubstr (lowerL k.data) (lowerL url.data)

/-! ## `search_keywords_in_file` -/

/-- Processing of one decoded line inside the reading loop: apply the
pattern, and on a match append a record when some keyword hits the URL. -/
def processLine (source : String) (keywords : List String) (n : Nat)
    (line : String) : List Rec :=
  match searchCred line with
  | some (url, username, password) =>
    if keywordHit keywords url then
      [Rec.matchRec url username password source n]
    else []
  | none => []

/-- `for line_number, line in enumerate(f, start=1)` over decoded lines,
starting the line counter at `n`. -/
def processLinesFrom (source : String) (keywords : List String) (n : Nat) :
    List String → List Rec
  | [] => []
  | l :: ls =>
    processLine source keywords n l ++ processLinesFrom source keywords (n + 1) ls

/-- All records a fully decoded file body contributes, lines numbered
from 1. -/
def processLines (source : String) (keywords : List String)
    (lines : List String) : List Rec :=
  processLinesFrom source keywords 1 lines

/-- Outcome of opening and iterating the file under one encoding:
`success lines` when the whole file decodes; `decodeErr pls` when a
`UnicodeDecodeError` is raised after the lines `pls` were already yielded
and processed; `ioErr` for any other exception. -/
inductive DecodeAttempt where
  | success (lines : List String)
  | decodeErr (partialLines : List String)
  | ioErr

/-- A file as seen by the reader: what each encoding attempt produces. -/
def FileModel : Type := String → DecodeAttempt

/-- `encodings_to_try = ['utf-8', 'ISO-8859-1', 'utf-16']`. -/
def encodings_to_try : List String := ["utf-8", "ISO-8859-1", "utf-16"]

/-- The encoding loop of `search_keywords_in_file`.  `acc` is the
`search_results` list, which the Python code creates once before the loop
and never resets: lines yielded before a `UnicodeDecodeError` stay in it
(the `continue` branch).  The two error returns build fresh lists; the
`for ... else` branch fires when no encoding succeeded. -/
def searchGo (fp : String) (kws : List String) (fm : FileModel)
    (acc : List Rec) : List String → List Rec
  | [] =>
    [Rec.errorRec ("Could not read " ++ fp ++ " with available encodings") fp]
  | e :: es =>
    match fm e with
    | .success lines => acc ++ processLines fp kws lines
    | .decodeErr pls => searchGo fp kws fm (acc ++ processLines fp kws pls) es
    | .ioErr => [Rec.errorRec ("Error reading file with encoding " ++ e) fp]

/-- `search_keywords_in_file(file_path, keywords)` with the file
abstracted as `fm`. -/
def search_keywords_in_file (fp : String) (kws : List String)
    (fm : FileModel) : List Rec :=
  searchGo fp kws fm [] encodings_to_try

/-! ## The scanning loop of `main` -/

/-- The per-file loop of `main`: `all_search_results.extend(results)` in
file discovery order. -/
def scanFiles (files : List (String × FileModel)) (kws : List String) :
    List Rec :=
  match files with
  | [] => []
  | (fp, fm) :: rest => search_keywords_in_file fp kws fm ++ scanFiles rest kws

/-! ## JSON writer (`json.dump(search_results, f, ensure_ascii=False,
indent=4)`) and a parser for the emitted JSON subset -/

/-- Lowercase hexadecimal digit, as used by the `\u00XX` escapes of
Python json. -/
def hexDigit (n : Nat) : Char :=
  if n < 10 then Char.ofNat (48 + n) else Char.ofNat (87 + n)

/-- Python json string escaping with `ensure_ascii=False`: quote,
backslash and the short control escapes, `\u00XX` for the remaining
control characters, every other character written raw. -/
def escapeChar (c : Char) : List Char :=
  if c = '"' then ['\\', '"']
  else if c = '\\' then ['\\', '\\']
  else if c = '\n' then ['\\', 'n']
  else if c = '\t' then ['\\', 't']
  else if c = '\r' then ['\\', 'r']
  else if c = '\x08' then ['\\', 'b']
  else if c = '\x0c' then ['\\', 'f']
  else if c.toNat < 32 then
    ['\\', 'u', '0', '0', hexDigit (c.toNat / 16), hexDigit (c.toNat % 16)]
  else [c]

/-- Escape a whole string body. -/
def escapeString : List Char → List Char
  | [] => []
  | c :: cs => escapeChar c ++ escapeString cs

/-- A JSON string literal. -/
def jstr (s : List Char) : List Char :=
  '"' :: escapeString s ++ ['"']

/-- Decimal digits of a natural number, most significant first. -/
def natToChars (n : Nat) : List Char :=
  if h : n < 10 then [Char.ofNat (48 + n)]
  else natToChars (n / 10) ++ [Char.ofNat (48 + n % 10)]
decreasing_by exact Nat.div_lt_self (by omega) (by omega)

/-- A value of the two kinds appearing in a record dict. -/
inductive JVal where
  | s (v : String)
  | n (v : Nat)
deriving DecidableEq

/-- The key/value pairs of a record dict, in Python dict insertion order
(the order `json.dump` writes them). -/
def recMembers : Rec → List (String × JVal)
  | .matchRec u un pw src ln =>
    [("url", .s u), ("username", .s un), ("password", .s pw),
     ("source", .s src), ("line", .n ln)]
  | .errorRec e src => [("error", .s e), ("source", .s src)]

/-- Serialize one value. -/
def writeJVal : JVal → List Char
  | .s v => jstr v.data
  | .n v => natToChars v

/-- Eight spaces: the member indentation at nesting depth 2 under
`indent=4`. -/
def ind8 : List Char := [' ', ' ', ' ', ' ', ' ', ' ', ' ', ' ']

/-- Four spaces: the object indentation at nesting depth 1. -/
def ind4 : List Char := [' ', ' ', ' ', ' ']

/-- One `"key": value` member line. -/
def memberLine (m : String × JVal) : List Char :=
  ind8 ++ jstr m.1.data ++ ':' :: ' ' :: writeJVal m.2

/-- Member lines joined by `,\n` (indent mode item separator). -/
def writeMembersList : List (String × JVal) → List Char
  | [] => []
  | [m] => memberLine m
  | m :: m2 :: ms => memberLine m ++ ',' :: '\n' :: writeMembersList (m2 :: ms)

/-- One record object as written inside the top-level array.  Record
dicts are never empty, so the empty-dict form `{}` does not occur. -/
def writeObj (r : Rec) : List Char :=
  ind4 ++ '\x7b' :: '\n' :: writeMembersList (recMembers r) ++
    '\n' :: ind4 ++ ['\x7d']

/-- Array items joined by `,\n`. -/
def writeItems : List Rec → List Char
  | [] => []
  | [r] => writeObj r
  | r :: r2 :: rs => writeObj r ++ ',' :: '\n' :: writeItems (r2 :: rs)

/-- `json.dump(results, f, ensure_ascii=False, indent=4)` as the written
character stream. -/
def jsonDumpL : List Rec → List Char
  | [] => ['[', ']']
  | r :: rs => '[' :: '\n' :: writeItems (r :: rs) ++ '\n' :: [']']

/-- The written JSON text. -/
def jsonDump (results : List Rec) : String :=
  (jsonDumpL results).asString

/-- JSON insignificant whitespace. -/
def wsChar (c : Char) : Bool :=
  c = ' ' || c = '\t' || c = '\n' || c = '\r'

/-- Skip insignificant whitespace. -/
def skipWs : List Char → List Char
  | [] => []
  | c :: cs => if wsChar c then skipWs cs else c :: cs

/-- Value of one hexadecimal digit. -/
def unhex (c : Char) : Option Nat :=
  if '0' ≤ c ∧ c ≤ '9' then some (c.toNat - 48)
  else if 'a' ≤ c ∧ c ≤ 'f' then some (c.toNat - 87)
  else if 'A' ≤ c ∧ c ≤ 'F' then some (c.toNat - 55)
  else none

/-- Decoded character of a one-letter escape sequence. -/
def escCode (e : Char) : Option Char :=
  if e = '"' then some '"'
  else if e = '\\' then some '\\'
  else if e = '/' then some '/'
  else if e = 'n' then some '\n'
  else if e = 't' then some '\t'
  else if e = 'r' then some '\r'
  else if e = 'b' then some '\x08'
  else if e = 'f' then some '\x0c'
  else none

/-- Parse a JSON string body after the opening quote; returns the decoded
content and the remainder after the closing quote. -/
def parseStrBody : List Char → Option (List Char × List Char)
  | [] => none
  | '"' :: cs => some ([], cs)
  | '\\' :: e :: cs =>
    if e = 'u' then
      match cs with
      | h1 :: h2 :: h3 :: h4 :: cs2 =>
        match unhex h1, unhex h2, unhex h3, unhex h4 with
        | some a, some b, some c, some d =>
          (parseStrBody cs2).map fun pr =>
            (Char.ofNat (((a * 16 + b) * 16 + c) * 16 + d) :: pr.1, pr.2)
        | _, _, _, _ => none
      | _ => none
    else
      match escCode e with
      | some c => (parseStrBody cs).map fun pr => (c :: pr.1, pr.2)
      | none => none
  | c :: cs => (parseStrBody cs).map fun pr => (c :: pr.1, pr.2)

/-- Parse a run of decimal digits with accumulator. -/
def parseNatAux (acc : Nat) : List Char → Nat × List Char
  | [] => (acc, [])
  | c :: cs =>
    if c.isDigit then parseNatAux (acc * 10 + (c.toNat - 48)) cs
    else (acc, c :: cs)

/-- Parse a nonneg decimal number (the only number shape the writer
emits). -/
def parseNum : List Char → Option (Nat × List Char)
  | [] => none
  | c :: cs =>
    if c.isDigit then some (parseNatAux (c.toNat - 48) cs) else none

/-- Parse one member value: a string or a number. -/
def parseJVal (s : List Char) : Option (JVal × List Char) :=
  match s with
  | '"' :: cs => (parseStrBody cs).map fun pr => (.s pr.1.asString, pr.2)
  | _ => (parseNum s).map fun pr => (.n pr.1, pr.2)

/-- Parse one `"key": value` member, skipping surrounding whitespace. -/
def parseMember (s : List Char) : Option ((String × JVal) × List Char) :=
  match skipWs s with
  | '"' :: cs =>
    match parseStrBody cs with
    | some (k, r1) =>
      match skipWs r1 with
      | ':' :: r2 =>
        match parseJVal (skipWs r2) with
        | some (v, r3) => some ((k.asString, v), r3)
        | none => none
      | _ => none
    | none => none
  | _ => none

/-- Parse the members of a nonempty object up to and including the
closing brace. -/
def parseMembers (fuel : Nat) (s : List Char) :
    Option (List (String × JVal) × List Char) :=
  match fuel with
  | 0 => none
  | fuel + 1 =>
    match parseMember s with
    | some (m, r1) =>
      match skipWs r1 with
      | ',' :: r2 =>
        match parseMembers fuel r2 with
        | some (ms, r3) => some (m :: ms, r3)
        | none => none
      | '\x7d' :: r2 => some ([m], r2)
      | _ => none
    | none => none

/-- Rebuild a record from a parsed member list. -/
def decodeRec : List (String × JVal) → Option Rec
  | [("url", .s u), ("username", .s un), ("password", .s pw),
     ("source", .s src), ("line", .n ln)] => some (.matchRec u un pw src ln)
  | [("error", .s e), ("source", .s src)] => some (.errorRec e src)
  | _ => none

/-- Parse one record object. -/
def parseObj (fuel : Nat) (s : List Char) : Option (Rec × List Char) :=
  match skipWs s with
  | '\x7b' :: cs =>
    match parseMembers fuel cs with
    | some (ms, r1) =>
      match decodeRec ms with
      | some r => some (r, r1)
      | none => none
    | none => none
  | _ => none

/-- Parse the items of a nonempty array up to and including the closing
bracket. -/
def parseItems (fuel : Nat) (s : List Char) :
    Option (List Rec × List Char) :=
  match fuel with
  | 0 => none
  | fuel + 1 =>
    match parseObj fuel s with
    | some (r, r1) =>
      match skipWs r1 with
      | ',' :: r2 =>
        match parseItems fuel r2 with
        | some (rs, r3) => some (r :: rs, r3)
        | none => none
      | ']' :: r2 => some ([r], r2)
      | _ => none
    | none => none

/-- Parse the written JSON document back into records. -/
def jsonParse (s : String) : Option (List Rec) :=
  match skipWs s.data with
  | '[' :: cs =>
    match skipWs cs with
    | ']' :: r => if skipWs r = [] then some [] else none
    | _ =>
      match parseItems (s.data.length + 1) cs with
      | some (rs, r) => if skipWs r = [] then some rs else none
      | none => none
  | _ => none

/-! ## csv/txt writers, `save_results`, and the control flow of `main` -/

/-- `fieldnames = ["url", "username", "password", "source", "line"]`. -/
def csvHeader : List String := ["url", "username", "password", "source", "line"]

/-- The csv data rows: `writer.writerow(result)` for each result without
an error key, in order.  `line` is written in decimal. -/
def csvRows : List Rec → List (List String)
  | [] => []
  | .matchRec u un pw src n :: rest =>
    [u, un, pw, src, toString n] :: csvRows rest
  | .errorRec _ _ :: rest => csvRows rest

/-- The whole csv output: fixed header row, then the data rows. -/
def csvOutput (results : List Rec) : List (List String) :=
  csvHeader :: csvRows results

/-- The txt line written for one match record. -/
def txtLine (u un pw src : String) (n : Nat) : String :=
  "URL: " ++ u ++ ", Username: " ++ un ++ ", Password: " ++ pw ++
    ", Source: " ++ src ++ ", Line: " ++ toString n

/-- The txt output lines: one per result without an error key, in
order. -/
def txtOutput : List Rec → List String
  | [] => []
  | .matchRec u un pw src n :: rest => txtLine u un pw src n :: txtOutput rest
  | .errorRec _ _ :: rest => txtOutput rest

/-- What a successful write puts into the output file. -/
inductive WriteOutput where
  | jsonOut (text : String)
  | csvOut (rows : List (List String))
  | txtOut (lines : List String)
deriving DecidableEq

/-- The body of the `try` block of `save_results`: selects the writer by
format, and on an unsupported format raises `ValueError` before anything
is written, modelled as `Except.error` carrying the exception text. -/
def save_results_body (results : List Rec) (fmt : String) :
    Except String WriteOutput :=
  if fmt = "json" then .ok (.jsonOut (jsonDump results))
  else if fmt = "csv" then .ok (.csvOut (csvOutput results))
  else if fmt = "txt" then .ok (.txtOut (txtOutput results))
  else .error "Unsupported output format. Choose \x27json\x27, \x27csv\x27, or \x27txt\x27."

/-- Observable outcome of a full `save_results` call, handlers included:
either the try block completed and the serialized output was written, or
an exception was caught by one of the two handlers, which log and print a
message and fall off the end of the function - a normal `None` return,
nothing is re-raised to the caller.  The `except IOError` handler is
unreachable here because filesystem write failures are outside this
model; the unsupported-format `ValueError` is caught by the generic
`except Exception` handler, whose printed text wraps the exception
message. -/
inductive SaveOutcome where
  | saved (out : WriteOutput)
  | reported (printed : String)
deriving DecidableEq

/-- `save_results` with its exception handlers. -/
def save_results (results : List Rec) (fmt : String) : SaveOutcome :=
  match save_results_body results fmt with
  | .ok out => .saved out
  | .error msg =>
    .reported ("An error occurred while saving the results: " ++ msg)

/-- `output_path.suffix.lstrip(.).lower()`: drop the leading dots of the
extension and lowercase it. -/
def formatOf (ext : String) : String :=
  ((ext.data.dropWhile fun c => c = '.').map Char.toLower).asString

/-- Outcome of a run of `main` after argument parsing and output-path
validation: an early `sys.exit(code)` with the printed message, or a
completed scan together with the outcome of `save_results`. -/
inductive MainResult where
  | exited (code : Nat) (msg : String)
  | completed (results : List Rec) (written : SaveOutcome)

/-- The control flow of `main` from the output-format check on: reject an
unsupported format with exit code 1 before any scanning, report an empty
file list with exit code 0, otherwise scan every discovered file and save
the aggregated results. -/
def runMain (ext : String) (files : List (String × FileModel))
    (kws : List String) : MainResult :=
  let fmt := formatOf ext
  if fmt = "json" ∨ fmt = "csv" ∨ fmt = "txt" then
    if files.isEmpty then .exited 0 "No .txt files found to process."
    else .completed (scanFiles files kws) (save_results (scanFiles files kws) fmt)
  else .exited 1 "Unsupported output format. Choose \x27json\x27, \x27csv\x27, or \x27txt\x27."

/-! ## Shape of a single file contribution (claims C1, C4, C5, C10) -/

/-- Every record built by `processLine` is a match record. -/
lemma processLine_isMatchRec (src : String) (kws : List String) (n : Nat)
    (line : String) : ∀ r ∈ processLine src kws n line, r.isMatchRec = true := by
  intro r hr
  unfold processLine at hr
  rcases h : searchCred line with - | ⟨u, un, pw⟩ <;> rw [h] at hr
  · simp at hr
  · by_cases hk : keywordHit kws u
    · simp [hk] at hr
      simp [hr, Rec.isMatchRec]
    · simp [hk] at hr

/-- Every record built by `processLinesFrom` is a match record. -/
lemma processLinesFrom_isMatchRec (src : String) (kws : List String) :
    ∀ ls n, ∀ r ∈ processLinesFrom src kws n ls, r.isMatchRec = true := by
  intro ls
  induction ls with
  | nil => intro n r hr; simp [processLinesFrom] at hr
  | cons l ls ih =>
    intro n r hr
    unfold processLinesFrom at hr
    rcases List.mem_append.1 hr with h | h
    · exact processLine_isMatchRec src kws n l r h
    · exact ih (n + 1) r h

/-- The encoding loop either returns match records only or a single error
record naming the file. -/
lemma searchGo_characterization (fp : String) (kws : List String)
    (fm : FileModel) :
    ∀ es acc, (∀ r ∈ acc, r.isMatchRec = true) →
      (∀ r ∈ searchGo fp kws fm acc es, r.isMatchRec = true) ∨
        ∃ msg, searchGo fp kws fm acc es = [Rec.errorRec msg fp] := by
  intro es
  induction es with
  | nil =>
    intro acc _
    exact Or.inr ⟨_, rfl⟩
  | cons e es ih =>
    intro acc hacc
    unfold searchGo
    rcases h : fm e with lines | pls | -
    · refine Or.inl ?_
      intro r hr
      rcases List.mem_append.1 hr with h1 | h1
      · exact hacc r h1
      · exact processLinesFrom_isMatchRec fp kws lines 1 r h1
    · refine ih _ ?_
      intro r hr
      rcases List.mem_append.1 hr with h1 | h1
      · exact hacc r h1
      · exact processLinesFrom_isMatchRec fp kws pls 1 r h1
    · exact Or.inr ⟨_, rfl⟩

/-- C5.  A single file contributes either match records only, or exactly
one error record (carrying the file path as source), never a mixture. -/
theorem file_contribution_never_mixed (fp : String) (kws : List String)
    (fm : FileModel) :
    (∀ r ∈ search_keywords_in_file fp kws fm, r.isMatchRec = true) ∨
      ∃ msg, search_keywords_in_file fp kws fm = [Rec.errorRec msg fp] := by
  exact searchGo_characterization fp kws fm encodings_to_try [] (by simp)

/-- C10.  `search_keywords_in_file` is total by construction (every
open/read/decode outcome of the file model is handled), and its value is
always a list in which every element is a record with exactly the match
keys or exactly the error keys (the two constructors of `Rec`); any error
record makes the whole value that single error record. -/
theorem searchFile_total_shape (fp : String) (kws : List String)
    (fm : FileModel) :
    (∀ r ∈ search_keywords_in_file fp kws fm,
        r.isMatchRec = true ∨ r.isErrorRec = true) ∧
      (∀ r ∈ search_keywords_in_file fp kws fm, r.isErrorRec = true →
        ∃ msg, search_keywords_in_file fp kws fm = [Rec.errorRec msg fp]) := by
  constructor
  · intro r _
    cases r
    · exact Or.inl rfl
    · exact Or.inr rfl
  · intro r hr herr
    rcases searchGo_characterization fp kws fm encodings_to_try [] (by simp)
      with h | h
    · have := h r hr
      cases r
      · simp [Rec.isErrorRec] at herr
      · simp [Rec.isMatchRec] at this
    · exact h

/-! ## C1: partial progress of a failed decode attempt is retained -/

/-- A file whose utf-8 attempt yields one credential line and then raises
a decode error, and which reads fully under ISO-8859-1 with the same
content.  Realizable as a file larger than the text reader chunk size
whose first chunk is valid UTF-8 and whose trailing bytes are not. -/
def c1FileModel : FileModel := fun e =>
  if e = "utf-8" then DecodeAttempt.decodeErr ["http://example.com:alice:secret"]
  else DecodeAttempt.success ["http://example.com:alice:secret"]

/-- C1 (code bug evaluation).  The `search_results` accumulator is not
reset when an encoding attempt fails partway, so the records extracted
from the abandoned utf-8 attempt are kept and the match is reported
twice; the claimed all-or-nothing behaviour would yield it once. -/
theorem searchFile_retains_partial_results_on_decode_error :
    search_keywords_in_file "big.txt" ["example"] c1FileModel =
      [Rec.matchRec "http://example.com" "alice" "secret" "big.txt" 1,
       Rec.matchRec "http://example.com" "alice" "secret" "big.txt" 1] := by
  rfl

/-! ## C4: per-file failure isolation -/

/-- The reader signals a file-level failure for the remaining encodings:
no attempt succeeds before an attempt raises a non-decode exception or
the candidate list is exhausted. -/
def readerFailsGo (fm : FileModel) : List String → Bool
  | [] => true
  | e :: es =>
    match fm e with
    | .success _ => false
    | .decodeErr _ => readerFailsGo fm es
    | .ioErr => true

/-- The Decoding File Reader signals a file-level failure for this file. -/
def readerFails (fm : FileModel) : Bool :=
  readerFailsGo fm encodings_to_try

/-- A failing reader makes the file contribute exactly one error
record. -/
lemma searchGo_of_readerFails (fp : String) (kws : List String)
    (fm : FileModel) :
    ∀ es acc, readerFailsGo fm es = true →
      ∃ msg, searchGo fp kws fm acc es = [Rec.errorRec msg fp] := by
  intro es
  induction es with
  | nil => intro acc _; exact ⟨_, rfl⟩
  | cons e es ih =>
    intro acc hfail
    unfold readerFailsGo at hfail
    unfold searchGo
    rcases h : fm e with lines | pls | - <;> rw [h] at hfail
    · simp at hfail
    · exact ih _ hfail
    · exact ⟨_, rfl⟩

/-- The scanning loop distributes over list append. -/
lemma scanFiles_append (a b : List (String × FileModel)) (kws : List String) :
    scanFiles (a ++ b) kws = scanFiles a kws ++ scanFiles b kws := by
  induction a with
  | nil => simp [scanFiles]
  | cons f a ih =>
    obtain ⟨fp, fm⟩ := f
    simp [scanFiles, ih]

/-- C4.  When the reader fails on one file, the scan appends exactly one
error record for it and every other file contributes exactly what it
would contribute alone, in order: one failure neither aborts the scan nor
alters any sibling contribution. -/
theorem file_failure_isolated (fp : String) (fm : FileModel)
    (kws : List String) (pre post : List (String × FileModel))
    (h : readerFails fm = true) :
    ∃ msg, scanFiles (pre ++ (fp, fm) :: post) kws =
      scanFiles pre kws ++ Rec.errorRec msg fp :: scanFiles post kws := by
  obtain ⟨msg, hmsg⟩ :=
    searchGo_of_readerFails fp kws fm encodings_to_try [] h
  refine ⟨msg, ?_⟩
  rw [scanFiles_append]
  simp [scanFiles, search_keywords_in_file] at hmsg ⊢
  rw [hmsg]
  simp

/-- C4 witness: a concrete scan with one unreadable file between two
readable ones. -/
theorem file_failure_isolated_witness :
    readerFails (fun _ => DecodeAttempt.ioErr) = true ∧
      ∃ msg,
        scanFiles
            [("a.txt", fun _ => DecodeAttempt.success ["http://example.com:u:p"]),
             ("bad.txt", fun _ => DecodeAttempt.ioErr),
             ("c.txt", fun _ => DecodeAttempt.success ["http://example.com:u2:p2"])]
            ["example"] =
          scanFiles
              [("a.txt", fun _ => DecodeAttempt.success ["http://example.com:u:p"])]
              ["example"] ++
            Rec.errorRec msg "bad.txt" ::
              scanFiles
                [("c.txt", fun _ => DecodeAttempt.success ["http://example.com:u2:p2"])]
                ["example"] := by
  refine ⟨rfl, ?_⟩
  exact file_failure_isolated "bad.txt" (fun _ => DecodeAttempt.ioErr)
    ["example"]
    [("a.txt", fun _ => DecodeAttempt.success ["http://example.com:u:p"])]
    [("c.txt", fun _ => DecodeAttempt.success ["http://example.com:u2:p2"])]
    rfl

/-! ## C7: csv/txt output is a projection of the match records -/

/-- The match records of a scan result, in original order. -/
def matchOnly (results : List Rec) : List Rec :=
  results.filter Rec.isMatchRec

/-- The csv data row of a match record. -/
def recCsvRow : Rec → List String
  | .matchRec u un pw src n => [u, un, pw, src, toString n]
  | .errorRec _ _ => []

/-- The txt line of a match record. -/
def recTxtLine : Rec → String
  | .matchRec u un pw src n => txtLine u un pw src n
  | .errorRec _ _ => ""

/-- C7.  For every scan result, csv output is the fixed header row
followed by exactly one data row per match record in original order, and
txt output is exactly one formatted line per match record in original
order; error records appear in neither. -/
theorem csv_txt_project_match_records (results : List Rec) :
    csvOutput results = csvHeader :: (matchOnly results).map recCsvRow ∧
      txtOutput results = (matchOnly results).map recTxtLine := by
  have h : csvRows results = (matchOnly results).map recCsvRow ∧
      txtOutput results = (matchOnly results).map recTxtLine := by
    induction results with
    | nil => simp [csvRows, txtOutput, matchOnly]
    | cons r rs ih =>
      cases r with
      | matchRec u un pw src n =>
        simp [csvRows, txtOutput, matchOnly, List.filter, Rec.isMatchRec,
          recCsvRow, recTxtLine, ih.1, ih.2]
      | errorRec e src =>
        simp [csvRows, txtOutput, matchOnly, List.filter, Rec.isMatchRec,
          ih.1, ih.2]
  exact ⟨by simp [csvOutput, h.1], h.2⟩

/-! ## C8: unsupported output format -/

/-- C8 counterexample.  On the format derived from an `.xml` output
path, the try block of `save_results` does raise the unsupported-format
`ValueError` before any write, but the surrounding `except Exception`
handler catches it: the call returns normally, with only a printed
report.  Since `SaveOutcome` has no outcome in which an exception
escapes `save_results` (the handler catches every `Exception`), the
unsupported format is never signaled to the caller of the Result
Writer, refuting that part of the claim. -/
theorem save_results_swallows_unsupported_format :
    save_results_body [] (formatOf ".xml") =
      Except.error
        "Unsupported output format. Choose \x27json\x27, \x27csv\x27, or \x27txt\x27." ∧
      save_results [] (formatOf ".xml") =
        SaveOutcome.reported
          ("An error occurred while saving the results: " ++
            "Unsupported output format. Choose \x27json\x27, \x27csv\x27, or \x27txt\x27.") := by
  exact ⟨rfl, rfl⟩

/-- C8 as amended.  A requested format other than json, csv, txt is
rejected by `main` with exit code 1, independently of the discovered
files (so before any scanning and before any write).  The Result Writer,
if invoked with such a format, raises before performing any write but
catches its own error and returns normally with a printed report, so the
unsupported format never reaches its caller. -/
theorem unsupported_format_exits_before_scan (ext : String)
    (files : List (String × FileModel)) (kws : List String)
    (results : List Rec)
    (h : ¬ (formatOf ext = "json" ∨ formatOf ext = "csv" ∨ formatOf ext = "txt")) :
    runMain ext files kws =
        MainResult.exited 1
          "Unsupported output format. Choose \x27json\x27, \x27csv\x27, or \x27txt\x27." ∧
      save_results_body results (formatOf ext) =
        Except.error
          "Unsupported output format. Choose \x27json\x27, \x27csv\x27, or \x27txt\x27." ∧
      save_results results (formatOf ext) =
        SaveOutcome.reported
          ("An error occurred while saving the results: " ++
            "Unsupported output format. Choose \x27json\x27, \x27csv\x27, or \x27txt\x27.") := by
  push_neg at h
  have hbody : save_results_body results (formatOf ext) =
      Except.error
        "Unsupported output format. Choose \x27json\x27, \x27csv\x27, or \x27txt\x27." := by
    unfold save_results_body
    rw [if_neg h.1, if_neg h.2.1, if_neg h.2.2]
  refine ⟨?_, hbody, ?_⟩
  · unfold runMain
    rw [if_neg]
    push_neg
    exact h
  · unfold save_results
    rw [hbody]

/-- C8 amended witness: requesting an output path with extension
`.xml`. -/
theorem unsupported_format_exits_before_scan_witness :
    ¬ (formatOf ".xml" = "json" ∨ formatOf ".xml" = "csv" ∨ formatOf ".xml" = "txt") ∧
      runMain ".xml" [("a.txt", fun _ => DecodeAttempt.ioErr)] ["k"] =
        MainResult.exited 1
          "Unsupported output format. Choose \x27json\x27, \x27csv\x27, or \x27txt\x27." := by
  refine ⟨by decide, ?_⟩
  exact (unsupported_format_exits_before_scan ".xml"
    [("a.txt", fun _ => DecodeAttempt.ioErr)] ["k"] [] (by decide)).1

/-! ## C6: the keyword filter is a case-insensitive substring test -/

/-- `isPrefixList` decides list-prefix. -/
lemma isPrefixList_iff (n h : List Char) :
    isPrefixList n h = true ↔ ∃ t, h = n ++ t := by
  induction n generalizing h with
  | nil => simp [isPrefixList]
  | cons c n ih =>
    cases h with
    | nil => simp [isPrefixList]
    | cons d h =>
      simp only [isPrefixList, Bool.and_eq_true, decide_eq_true_eq, ih,
        List.cons_append]
      constructor
      · rintro ⟨rfl, t, rfl⟩
        exact ⟨t, rfl⟩
      · rintro ⟨t, ht⟩
        injection ht with h1 h2
        exact ⟨h1.symm, t, h2⟩

/-- `isSubstr` decides the substring relation. -/
lemma isSubstr_iff (n h : List Char) :
    isSubstr n h = true ↔ ∃ s t, h = s ++ n ++ t := by
  induction h with
  | nil => simp [isSubstr, isPrefixList_iff]
  | cons d h ih =>
    simp only [isSubstr, Bool.or_eq_true, ih, isPrefixList_iff]
    constructor
    · rintro (⟨t, h1⟩ | ⟨s, t, h1⟩)
      · exact ⟨[], t, by simp [h1]⟩
      · exact ⟨d :: s, t, by simp [h1]⟩
    · rintro ⟨s, t, h1⟩
      cases s with
      | nil => exact Or.inl ⟨t, by simpa using h1⟩
      | cons x s =>
        refine Or.inr ⟨s, t, ?_⟩
        simp only [List.cons_append, List.cons.injEq] at h1
        exact h1.2

/-- The code's keyword test holds exactly when some keyword, lowercased,
is a substring of the lowercased URL. -/
lemma keywordHit_iff (kws : List String) (url : String) :
    keywordHit kws url = true ↔
      ∃ k ∈ kws, ∃ s t, lowerL url.data = s ++ lowerL k.data ++ t := by
  unfold keywordHit
  rw [List.any_eq_true]
  constructor
  · rintro ⟨k, hk, hsub⟩
    exact ⟨k, hk, (isSubstr_iff _ _).1 hsub⟩
  · rintro ⟨k, hk, hsub⟩
    exact ⟨k, hk, (isSubstr_iff _ _).2 hsub⟩

/-- C6.  On a line where the pattern extracts a triple, a match record is
appended exactly when some caller keyword, lowercased, occurs as a
substring of the lowercased extracted URL; otherwise the line contributes
nothing. -/
theorem keyword_filter_characterization (src : String) (kws : List String)
    (n : Nat) (line : String) (u un pw : String)
    (h : searchCred line = some (u, un, pw)) :
    ((∃ k ∈ kws, ∃ s t, lowerL u.data = s ++ lowerL k.data ++ t) →
        processLine src kws n line = [Rec.matchRec u un pw src n]) ∧
      ((¬ ∃ k ∈ kws, ∃ s t, lowerL u.data = s ++ lowerL k.data ++ t) →
        processLine src kws n line = []) := by
  constructor
  · intro hex
    have hk := (keywordHit_iff kws u).2 hex
    simp [processLine, h, hk]
  · intro hex
    have hk : keywordHit kws u = false := by
      cases hkk : keywordHit kws u
      · rfl
      · exact absurd ((keywordHit_iff kws u).1 hkk) hex
    simp [processLine, h, hk]

/-- C6 witness: keyword EXAMPLE matches url https://example.com/x
case-insensitively. -/
theorem keyword_filter_characterization_witness :
    searchCred "https://example.com/x:user:pass" =
        some ("https://example.com/x", "user", "pass") ∧
      processLine "f.txt" ["EXAMPLE"] 7 "https://example.com/x:user:pass" =
        [Rec.matchRec "https://example.com/x" "user" "pass" "f.txt" 7] := by
  refine ⟨by decide, ?_⟩
  refine (keyword_filter_characterization "f.txt" ["EXAMPLE"] 7
    "https://example.com/x:user:pass" "https://example.com/x" "user" "pass"
    (by decide)).1 ?_
  exact ⟨"EXAMPLE", by decide, "https://".data, ".com/x".data, by decide⟩

/-! ## C2/C3: behaviour of the matcher on well-formed credential text

Small laws of the backtracking engine. -/

/-- `firstSome` on a cons whose head succeeds. -/
lemma firstSome_cons_of_some {f : α → Option β} {a : α} {l : List α} {b : β}
    (h : f a = some b) : firstSome f (a :: l) = some b := by
  simp [firstSome, h]

/-- `firstSome` on a cons whose head fails. -/
lemma firstSome_cons_of_none {f : α → Option β} {a : α} {l : List α}
    (h : f a = none) : firstSome f (a :: l) = firstSome f l := by
  simp [firstSome, h]

/-- `firstSome` over an append whose left part already succeeds. -/
lemma firstSome_append_some {f : α → Option β} {l1 l2 : List α} {b : β}
    (h : firstSome f l1 = some b) : firstSome f (l1 ++ l2) = some b := by
  induction l1 with
  | nil => simp [firstSome] at h
  | cons a l ih =>
    rcases ha : f a with - | b'
    · rw [firstSome_cons_of_none ha] at h
      rw [List.cons_append, firstSome_cons_of_none ha]
      exact ih h
    · rw [firstSome_cons_of_some ha] at h
      rw [List.cons_append, firstSome_cons_of_some ha]
      exact h

/-- `firstSome` over an append whose left part fails throughout. -/
lemma firstSome_append_none {f : α → Option β} {l1 l2 : List α}
    (h : firstSome f l1 = none) : firstSome f (l1 ++ l2) = firstSome f l2 := by
  induction l1 with
  | nil => simp
  | cons a l ih =>
    rcases ha : f a with - | b'
    · rw [firstSome_cons_of_none ha] at h
      rw [List.cons_append, firstSome_cons_of_none ha]
      exact ih h
    · rw [firstSome_cons_of_some ha] at h
      exact absurd h (by simp)

/-- `firstSome` over a mapped list. -/
lemma firstSome_map {f : α → Option β} {g : γ → α} {l : List γ} :
    firstSome f (l.map g) = firstSome (fun a => f (g a)) l := by
  induction l with
  | nil => simp [firstSome]
  | cons a l ih => simp [firstSome, ih]

/-- `firstSome` of an everywhere-failing function. -/
lemma firstSome_none {f : α → Option β} {l : List α}
    (h : ∀ a ∈ l, f a = none) : firstSome f l = none := by
  induction l with
  | nil => simp [firstSome]
  | cons a l ih =>
    rw [firstSome_cons_of_none (h a (by simp))]
    exact ih fun a ha => h a (by simp [ha])

/-- `firstSome` respects pointwise equality on the list. -/
lemma firstSome_congr {f g : α → Option β} {l : List α}
    (h : ∀ a ∈ l, f a = g a) : firstSome f l = firstSome g l := by
  induction l with
  | nil => simp [firstSome]
  | cons a l ih =>
    simp only [firstSome, h a (by simp)]
    cases g a
    · exact ih fun a ha => h a (by simp [ha])
    · rfl

/-- Unfolding of `runSplits` on a `p`-character. -/
lemma runSplits_cons_pos (p : Char → Bool) (c : Char) (l : List Char)
    (hc : p c = true) :
    runSplits p (c :: l) =
      ((runSplits p l).map fun pr => (c :: pr.1, pr.2)) ++ [([], c :: l)] := by
  simp [runSplits, hc]

/-- A run of `p`-characters followed by a non-`p` boundary: the greedy
candidate list starts with the whole run. -/
lemma runSplits_head (p : Char → Bool) (a b : List Char)
    (ha : ∀ c ∈ a, p c = true)
    (hb : ∀ c cs, b = c :: cs → p c = false) :
    ∃ t, runSplits p (a ++ b) = (a, b) :: t := by
  induction a with
  | nil =>
    cases b with
    | nil => exact ⟨[], rfl⟩
    | cons c cs =>
      refine ⟨[], ?_⟩
      simp [runSplits, hb c cs rfl]
  | cons x a ih =>
    obtain ⟨t, ht⟩ := ih fun c hc => ha c (by simp [hc])
    have hx : p x = true := ha x (by simp)
    refine ⟨t.map (fun pr => (x :: pr.1, pr.2)) ++ [([], x :: (a ++ b))], ?_⟩
    rw [List.cons_append, runSplits_cons_pos p x (a ++ b) hx, ht]
    simp

/-- Members of the greedy candidate list: the two parts reassemble the
input and the taken part is all `p`-characters. -/
lemma runSplits_mem (p : Char → Bool) (l : List Char) :
    ∀ pr ∈ runSplits p l, pr.1 ++ pr.2 = l ∧ ∀ c ∈ pr.1, p c = true := by
  induction l with
  | nil =>
    intro pr hpr
    simp [runSplits] at hpr
    simp [hpr]
  | cons x l ih =>
    intro pr hpr
    by_cases hx : p x = true
    · simp only [runSplits, hx, if_pos] at hpr
      rcases List.mem_append.1 hpr with h | h
      · obtain ⟨q, hq, rfl⟩ := List.mem_map.1 h
        obtain ⟨h1, h2⟩ := ih q hq
        refine ⟨by simp [h1], ?_⟩
        intro c hc
        rcases List.mem_cons.1 hc with rfl | hc
        · exact hx
        · exact h2 c hc
      · simp at h
        simp [h]
    · simp only [runSplits, hx, if_neg, Bool.not_eq_true] at hpr
      simp at hpr
      simp [hpr]

/-- A username character is not a colon. -/
lemma userChar_ne_colon {c : Char} (h : userChar c = true) : ¬ c = ':' := by
  intro rfl_h
  subst rfl_h
  simp [userChar, pySpace] at h

/-- A username character is not a slash. -/
lemma userChar_ne_slash {c : Char} (h : userChar c = true) : ¬ c = '/' := by
  intro rfl_h
  subst rfl_h
  simp [userChar, pySpace] at h

/-- A username character is not whitespace. -/
lemma userChar_not_space {c : Char} (h : userChar c = true) :
    pySpace c = false := by
  unfold userChar at h
  rcases hps : pySpace c
  · rfl
  · rw [hps] at h
    simp at h

/-- A username character is in particular a path character. -/
lemma userChar_pathChar {c : Char} (h : userChar c = true) :
    pathChar c = true := by
  simp [pathChar, userChar_not_space h]

/-- A password character is in particular a path character. -/
lemma passChar_pathChar {c : Char} (h : passChar c = true) :
    pathChar c = true := by
  unfold passChar at h
  rcases hps : pySpace c
  · simp [pathChar, hps]
  · rw [hps] at h
    simp at h

/-- A password character is not a slash. -/
lemma passChar_ne_slash {c : Char} (h : passChar c = true) : ¬ c = '/' := by
  intro rfl_h
  subst rfl_h
  simp [passChar, pySpace] at h

/-- A non-colon password character is a username character. -/
lemma passChar_userChar {c : Char} (h : passChar c = true) (hc : ¬ c = ':') :
    userChar c = true := by
  unfold passChar at h
  unfold userChar
  rcases hps : pySpace c <;> rw [hps] at h <;> simp at h ⊢
  exact ⟨hc, h⟩

/-- A username character is also a password character. -/
lemma userChar_passChar {c : Char} (h : userChar c = true) :
    passChar c = true := by
  unfold userChar at h
  unfold passChar
  rcases hps : pySpace c <;> rw [hps] at h <;> simp at h ⊢
  exact h.2

/-- A whitespace character fails every class of the pattern. -/
lemma pySpace_not_pathChar {c : Char} (h : pySpace c = true) :
    pathChar c = false := by
  simp [pathChar, h]

/-- A whitespace character is not a username character. -/
lemma pySpace_not_userChar {c : Char} (h : pySpace c = true) :
    userChar c = false := by
  simp [userChar, h]

/-- A whitespace character is not a password character. -/
lemma pySpace_not_passChar {c : Char} (h : pySpace c = true) :
    passChar c = false := by
  simp [passChar, h]

/-- A whitespace character is not a colon. -/
lemma pySpace_ne_colon {c : Char} (h : pySpace c = true) : ¬ c = ':' := by
  intro rfl_h
  subst rfl_h
  simp [pySpace] at h

/-- A digit is not a colon. -/
lemma isDigit_ne_colon {c : Char} (h : c.isDigit = true) : ¬ c = ':' := by
  intro rfl_h
  subst rfl_h
  simp [Char.isDigit] at h

/-- A digit is not a slash. -/
lemma isDigit_ne_slash {c : Char} (h : c.isDigit = true) : ¬ c = '/' := by
  intro rfl_h
  subst rfl_h
  simp [Char.isDigit] at h

/-- A host character is not a colon. -/
lemma hostChar_ne_colon {c : Char} (h : hostChar c = true) : ¬ c = ':' := by
  intro rfl_h
  subst rfl_h
  simp [hostChar, pySpace] at h

/-! Shape reductions of the matcher functions. -/

/-- The tail pattern needs a leading colon. -/
lemma tryTail_cons_ne (url : List Char) (c : Char) (s : List Char)
    (h : ¬ c = ':') : tryTail url (c :: s) = none := by
  unfold tryTail
  split
  · rename_i s1 heq
    injection heq with h1 h2
    exact absurd h1 h
  · rfl

/-- The tail pattern cannot match an empty remainder. -/
lemma tryTail_nil (url : List Char) : tryTail url [] = none := rfl

/-- Without a leading slash the optional path group matches empty. -/
lemma tryPath_cons_ne (url : List Char) (c : Char) (s : List Char)
    (h : ¬ c = '/') : tryPath url (c :: s) = tryTail url (c :: s) := by
  unfold tryPath
  split
  · rename_i s1 heq
    injection heq with h1 h2
    exact absurd h1 h
  · rfl

/-- The path group on an empty remainder. -/
lemma tryPath_nil (url : List Char) : tryPath url [] = tryTail url [] := rfl

/-- Without a leading colon the optional port group matches empty. -/
lemma tryPort_cons_ne (url : List Char) (c : Char) (s : List Char)
    (h : ¬ c = ':') : tryPort url (c :: s) = tryPath url (c :: s) := by
  unfold tryPort
  split
  · rename_i s1 heq
    injection heq with h1 h2
    exact absurd h1 h
  · rfl

/-- A nonempty list is not `isEmpty`. -/
lemma isEmpty_false_of_ne {l : List Char} (h : ¬ l = []) :
    l.isEmpty = false := by
  cases l
  · exact absurd rfl h
  · rfl

/-- Arm equation of `tryTail` on a leading colon. -/
lemma tryTail_cons_colon (url s1 : List Char) :
    tryTail url (':' :: s1) =
      firstSome
        (fun pr =>
          if pr.1.isEmpty then none
          else
            match pr.2 with
            | ':' :: s2 =>
              firstSome
                (fun qr =>
                  if qr.1.isEmpty then none else some (url, pr.1, qr.1))
                (runSplits passChar s2)
            | _ => none)
        (runSplits userChar s1) := rfl

/-- Arm equation of `tryPath` on a leading slash. -/
lemma tryPath_cons_slash (url s1 : List Char) :
    tryPath url ('/' :: s1) =
      match
        firstSome (fun pr => tryTail (url ++ '/' :: pr.1) pr.2)
          (runSplits pathChar s1) with
      | some r => some r
      | none => tryTail url ('/' :: s1) := rfl

/-- Arm equation of `tryPort` on a leading colon. -/
lemma tryPort_cons_colon (url s1 : List Char) :
    tryPort url (':' :: s1) =
      match
        firstSome
          (fun pr =>
            if pr.1.isEmpty then none else tryPath (url ++ ':' :: pr.1) pr.2)
          (runSplits Char.isDigit s1) with
      | some r => some r
      | none => tryPath url (':' :: s1) := rfl

/-- The tail pattern succeeds on `:user:pass` followed by a boundary:
both tokens are taken greedily and whole. -/
lemma tryTail_success (url user pass rest : List Char)
    (hu1 : ¬ user = []) (hu : ∀ c ∈ user, userChar c = true)
    (hp1 : ¬ pass = []) (hp : ∀ c ∈ pass, passChar c = true)
    (hr : ∀ c cs, rest = c :: cs → passChar c = false) :
    tryTail url (':' :: (user ++ ':' :: (pass ++ rest))) = some (url, user, pass) := by
  obtain ⟨t2, ht2⟩ := runSplits_head passChar pass rest hp hr
  obtain ⟨t, ht⟩ := runSplits_head userChar user (':' :: (pass ++ rest)) hu
    (by rintro c cs hceq; injection hceq with h1 h2; subst h1; decide)
  rw [tryTail_cons_colon, ht]
  apply firstSome_cons_of_some
  show (if user.isEmpty = true then none
      else
        firstSome
          (fun qr => if qr.1.isEmpty = true then none else some (url, user, qr.1))
          (runSplits passChar (pass ++ rest))) = some (url, user, pass)
  rw [isEmpty_false_of_ne hu1]
  simp only [Bool.false_eq_true, if_false]
  rw [ht2]
  apply firstSome_cons_of_some
  show (if pass.isEmpty = true then none else some (url, user, pass)) =
    some (url, user, pass)
  rw [isEmpty_false_of_ne hp1]
  simp

/-- The tail pattern fails on a colon followed by one username-class run
and then a boundary that is neither a colon nor a username character: the
second colon of the pattern never arrives. -/
lemma tryTail_fail (url w rest : List Char)
    (hw : ∀ c ∈ w, userChar c = true)
    (hr1 : ∀ c cs, rest = c :: cs → userChar c = false)
    (hr2 : ∀ c cs, rest = c :: cs → ¬ c = ':') :
    tryTail url (':' :: (w ++ rest)) = none := by
  rw [tryTail_cons_colon]
  apply firstSome_none
  intro pr hpr
  obtain ⟨heq, hall⟩ := runSplits_mem userChar (w ++ rest) pr hpr
  have hshape : pr.2 = [] ∨ ∃ d tl, pr.2 = d :: tl ∧ ¬ d = ':' := by
    rcases List.append_eq_append_iff.1 heq with ⟨a', ha1, ha2⟩ | ⟨c', hc1, hc2⟩
    · cases a' with
      | nil =>
        rw [List.nil_append] at ha2
        cases hrest : rest with
        | nil => exact Or.inl (by rw [ha2, hrest])
        | cons d tl =>
          exact Or.inr ⟨d, tl, by rw [ha2, hrest], hr2 d tl hrest⟩
      | cons d a2 =>
        have hd : d ∈ w := by
          rw [ha1]
          exact List.mem_append.2 (Or.inr (by simp))
        exact Or.inr ⟨d, a2 ++ rest, by simp [ha2], userChar_ne_colon (hw d hd)⟩
    · cases c' with
      | nil =>
        rw [List.nil_append] at hc2
        cases hrest : rest with
        | nil => exact Or.inl (by rw [← hc2, hrest])
        | cons d tl =>
          exact Or.inr ⟨d, tl, by rw [← hc2, hrest], hr2 d tl hrest⟩
      | cons x xs =>
        exfalso
        have hx1 : userChar x = true := by
          refine hall x ?_
          rw [hc1]
          exact List.mem_append.2 (Or.inr (by simp))
        have hx2 : userChar x = false := hr1 x (xs ++ pr.2) hc2
        rw [hx1] at hx2
        exact Bool.noConfusion hx2
  show (if pr.1.isEmpty = true then none
      else
        match pr.2 with
        | ':' :: s2 =>
          firstSome
            (fun qr => if qr.1.isEmpty = true then none else some (url, pr.1, qr.1))
            (runSplits passChar s2)
        | _ => none) = none
  by_cases he : pr.1.isEmpty = true
  · rw [if_pos he]
  · rw [if_neg he]
    rcases hshape with h2 | ⟨d, tl, h2, hd⟩
    · rw [h2]
    · rw [h2]
      split
      · rename_i s2 heq2
        injection heq2 with hh1 hh2
        exact absurd hh1 hd
      · rfl

/-- A list with a single colon splits at that colon in only one way. -/
lemma colon_split_unique (user pass q a : List Char)
    (hu : ∀ c ∈ user, ¬ c = ':')
    (hp : ∀ c ∈ pass, ¬ c = ':')
    (h : user ++ ':' :: pass = q ++ ':' :: a) :
    q = user ∧ a = pass := by
  rcases List.append_eq_append_iff.1 h with ⟨w, hw1, hw2⟩ | ⟨w, hw1, hw2⟩
  · cases w with
    | nil =>
      rw [List.nil_append] at hw2
      injection hw2 with h1 h2
      exact ⟨by simp [hw1], h2.symm⟩
    | cons y ys =>
      exfalso
      rw [List.cons_append] at hw2
      injection hw2 with h1 h2
      have : (':' : Char) ∈ pass := by
        rw [h2]
        exact List.mem_append.2 (Or.inr (by simp))
      exact hp ':' this rfl
  · cases w with
    | nil =>
      rw [List.nil_append] at hw2
      injection hw2 with h1 h2
      exact ⟨by simp [hw1], h2⟩
    | cons y ys =>
      exfalso
      rw [List.cons_append] at hw2
      injection hw2 with h1 h2
      have : (':' : Char) ∈ user := by
        rw [hw1, h1]
        exact List.mem_append.2 (Or.inr (by simp))
      exact hu ':' this rfl

/-- Over the region `user:pass` followed by a whitespace-or-end boundary
(user and pass both colon-free username-class runs), every greedy path
candidate leaves a remainder on which the tail pattern fails: the path
group cannot steal the last two tokens. -/
lemma pathSplits_none (user pass rest : List Char)
    (hu : ∀ c ∈ user, userChar c = true)
    (hp : ∀ c ∈ pass, userChar c = true)
    (hws : ∀ c cs, rest = c :: cs → pySpace c = true) :
    ∀ pr ∈ runSplits pathChar (user ++ ':' :: (pass ++ rest)), ∀ url',
      tryTail url' pr.2 = none := by
  intro pr hpr url'
  obtain ⟨heq, hall⟩ :=
    runSplits_mem pathChar (user ++ ':' :: (pass ++ rest)) pr hpr
  have heq' : pr.1 ++ pr.2 = (user ++ ':' :: pass) ++ rest := by
    rw [heq]
    simp
  rcases List.append_eq_append_iff.1 heq' with ⟨a', ha1, ha2⟩ | ⟨c', hc1, hc2⟩
  · cases a' with
    | nil =>
      rw [List.nil_append] at ha2
      cases hrest : rest with
      | nil =>
        rw [ha2, hrest]
        exact tryTail_nil url'
      | cons d tl =>
        rw [ha2, hrest]
        exact tryTail_cons_ne url' d tl (pySpace_ne_colon (hws d tl hrest))
    | cons d a2 =>
      by_cases hd : d = ':'
      · subst hd
        obtain ⟨h1, h2⟩ := colon_split_unique user pass pr.1 a2
          (fun c hc => userChar_ne_colon (hu c hc))
          (fun c hc => userChar_ne_colon (hp c hc)) ha1
        rw [ha2, List.cons_append, h2]
        exact tryTail_fail url' pass rest hp
          (fun c cs hc => pySpace_not_userChar (hws c cs hc))
          (fun c cs hc => pySpace_ne_colon (hws c cs hc))
      · rw [ha2, List.cons_append]
        exact tryTail_cons_ne url' d (a2 ++ rest) hd
  · cases c' with
    | nil =>
      rw [List.nil_append] at hc2
      cases hrest : pr.2 with
      | nil => exact tryTail_nil url'
      | cons d tl =>
        have hdw : pySpace d = true := hws d tl (hc2.trans hrest)
        exact tryTail_cons_ne url' d tl (pySpace_ne_colon hdw)
    | cons x xs =>
      exfalso
      have hx1 : pathChar x = true := by
        refine hall x ?_
        rw [hc1]
        exact List.mem_append.2 (Or.inr (by simp))
      have hx2 : pySpace x = true := hws x (xs ++ pr.2) hc2
      rw [pySpace_not_pathChar hx2] at hx1
      exact Bool.noConfusion hx1

/-- The greedy path group ends exactly at the colon before the username:
for any all-path-class `path`, the backtracking search over its greedy
candidates returns the url extended by the whole path, then the username
and password tokens. -/
lemma pathSearch_wins (user pass rest : List Char)
    (hu1 : ¬ user = []) (hu : ∀ c ∈ user, userChar c = true)
    (hp1 : ¬ pass = []) (hp : ∀ c ∈ pass, passChar c = true)
    (hpc : ∀ c ∈ pass, ¬ c = ':')
    (hws : ∀ c cs, rest = c :: cs → pySpace c = true) :
    ∀ path acc, (∀ c ∈ path, pathChar c = true) →
      firstSome (fun pr => tryTail (acc ++ pr.1) pr.2)
        (runSplits pathChar (path ++ ':' :: (user ++ ':' :: (pass ++ rest)))) =
      some (acc ++ path, user, pass) := by
  intro path
  induction path with
  | nil =>
    intro acc hpa
    rw [List.nil_append, runSplits_cons_pos pathChar ':' _ (by decide)]
    have hnone : firstSome (fun pr => tryTail (acc ++ pr.1) pr.2)
        ((runSplits pathChar (user ++ ':' :: (pass ++ rest))).map
          fun pr => (':' :: pr.1, pr.2)) = none := by
      rw [firstSome_map]
      apply firstSome_none
      intro pr hpr
      exact pathSplits_none user pass rest hu
        (fun c hc => passChar_userChar (hp c hc) (hpc c hc)) hws pr hpr _
    rw [firstSome_append_none hnone]
    apply firstSome_cons_of_some
    show tryTail (acc ++ []) (':' :: (user ++ ':' :: (pass ++ rest))) =
      some (acc ++ [], user, pass)
    exact tryTail_success (acc ++ []) user pass rest hu1 hu hp1 hp
      (fun c cs hc => pySpace_not_passChar (hws c cs hc))
  | cons c path ih =>
    intro acc hpa
    have hc : pathChar c = true := hpa c (by simp)
    rw [List.cons_append, runSplits_cons_pos pathChar c _ hc]
    have hfirst : firstSome (fun pr => tryTail (acc ++ pr.1) pr.2)
        ((runSplits pathChar
            (path ++ ':' :: (user ++ ':' :: (pass ++ rest)))).map
          fun pr => (c :: pr.1, pr.2)) = some (acc ++ c :: path, user, pass) := by
      rw [firstSome_map]
      have hcongr : ∀ pr ∈ runSplits pathChar
          (path ++ ':' :: (user ++ ':' :: (pass ++ rest))),
          tryTail (acc ++ c :: pr.1) pr.2 =
            tryTail ((acc ++ [c]) ++ pr.1) pr.2 := by
        intro pr _
        rw [List.append_assoc, List.singleton_append]
      rw [firstSome_congr hcongr]
      rw [ih (acc ++ [c]) fun d hd => hpa d (by simp [hd])]
      rw [List.append_assoc, List.singleton_append]
    exact firstSome_append_some hfirst

/-- The URL group with a slash-led path: the path group consumes exactly
`path` and the tail pattern takes the two tokens. -/
lemma tryPath_credential (url path user pass rest : List Char)
    (hpa : ∀ c ∈ path, pathChar c = true)
    (hu1 : ¬ user = []) (hu : ∀ c ∈ user, userChar c = true)
    (hp1 : ¬ pass = []) (hp : ∀ c ∈ pass, passChar c = true)
    (hpc : ∀ c ∈ pass, ¬ c = ':')
    (hws : ∀ c cs, rest = c :: cs → pySpace c = true) :
    tryPath url ('/' :: (path ++ ':' :: (user ++ ':' :: (pass ++ rest)))) =
      some ((url ++ ['/']) ++ path, user, pass) := by
  rw [tryPath_cons_slash]
  have hcongr : ∀ pr ∈ runSplits pathChar
      (path ++ ':' :: (user ++ ':' :: (pass ++ rest))),
      tryTail (url ++ '/' :: pr.1) pr.2 =
        tryTail ((url ++ ['/']) ++ pr.1) pr.2 := by
    intro pr _
    rw [List.append_assoc, List.singleton_append]
  rw [firstSome_congr hcongr,
    pathSearch_wins user pass rest hu1 hu hp1 hp hpc hws path (url ++ ['/']) hpa]

/-- The URL group with port and path: the port group consumes exactly
`port`. -/
lemma tryPort_credential (url port path user pass rest : List Char)
    (hpo1 : ¬ port = []) (hpo : ∀ c ∈ port, c.isDigit = true)
    (hpa : ∀ c ∈ path, pathChar c = true)
    (hu1 : ¬ user = []) (hu : ∀ c ∈ user, userChar c = true)
    (hp1 : ¬ pass = []) (hp : ∀ c ∈ pass, passChar c = true)
    (hpc : ∀ c ∈ pass, ¬ c = ':')
    (hws : ∀ c cs, rest = c :: cs → pySpace c = true) :
    tryPort url
        (':' :: (port ++ '/' :: (path ++ ':' :: (user ++ ':' :: (pass ++ rest))))) =
      some (((url ++ ':' :: port) ++ ['/']) ++ path, user, pass) := by
  rw [tryPort_cons_colon]
  obtain ⟨t, ht⟩ := runSplits_head Char.isDigit port
    ('/' :: (path ++ ':' :: (user ++ ':' :: (pass ++ rest)))) hpo
    (by rintro c cs hc; injection hc with h1 h2; subst h1; decide)
  rw [ht]
  have hf : firstSome
      (fun pr => if pr.1.isEmpty then none else tryPath (url ++ ':' :: pr.1) pr.2)
      ((port, '/' :: (path ++ ':' :: (user ++ ':' :: (pass ++ rest)))) :: t) =
      some (((url ++ ':' :: port) ++ ['/']) ++ path, user, pass) := by
    apply firstSome_cons_of_some
    show (if port.isEmpty = true then none
        else tryPath (url ++ ':' :: port)
          ('/' :: (path ++ ':' :: (user ++ ':' :: (pass ++ rest))))) =
      some (((url ++ ':' :: port) ++ ['/']) ++ path, user, pass)
    rw [isEmpty_false_of_ne hpo1]
    simp only [Bool.false_eq_true, if_false]
    exact tryPath_credential (url ++ ':' :: port) path user pass rest hpa hu1 hu
      hp1 hp hpc hws
  rw [hf]

/-- The host run is taken whole; whatever the rest of the pattern yields
is the overall result. -/
lemma tryHost_credential (scheme host rest2 : List Char)
    (r : List Char × List Char × List Char)
    (hh1 : ¬ host = []) (hh : ∀ c ∈ host, hostChar c = true)
    (hstop : ∀ c cs, rest2 = c :: cs → hostChar c = false)
    (hnext : tryPort (scheme ++ host) rest2 = some r) :
    tryHost scheme (host ++ rest2) = some r := by
  unfold tryHost
  obtain ⟨t, ht⟩ := runSplits_head hostChar host rest2 hh hstop
  rw [ht]
  apply firstSome_cons_of_some
  show (if host.isEmpty = true then none else tryPort (scheme ++ host) rest2) =
    some r
  rw [isEmpty_false_of_ne hh1]
  simpa using hnext

/-- When the username contains a non-digit, the optional port group
cannot absorb it: every greedy digit candidate fails and the port group
matches empty, so the two trailing tokens survive whole. -/
lemma tryPort_no_port (url user pass rest : List Char)
    (hu1 : ¬ user = []) (hu : ∀ c ∈ user, userChar c = true)
    (hnd : ∃ c ∈ user, c.isDigit = false)
    (hp1 : ¬ pass = []) (hp : ∀ c ∈ pass, passChar c = true)
    (hws : ∀ c cs, rest = c :: cs → pySpace c = true) :
    tryPort url (':' :: (user ++ ':' :: (pass ++ rest))) = some (url, user, pass) := by
  rw [tryPort_cons_colon]
  have hnone : firstSome
      (fun pr => if pr.1.isEmpty then none else tryPath (url ++ ':' :: pr.1) pr.2)
      (runSplits Char.isDigit (user ++ ':' :: (pass ++ rest))) = none := by
    apply firstSome_none
    intro pr hpr
    obtain ⟨heq, hall⟩ :=
      runSplits_mem Char.isDigit (user ++ ':' :: (pass ++ rest)) pr hpr
    show (if pr.1.isEmpty = true then none
        else tryPath (url ++ ':' :: pr.1) pr.2) = none
    by_cases he : pr.1.isEmpty = true
    · rw [if_pos he]
    · rw [if_neg he]
      rcases List.append_eq_append_iff.1 heq with ⟨a', ha1, ha2⟩ | ⟨c', hc1, hc2⟩
      · cases a' with
        | nil =>
          exfalso
          obtain ⟨c0, hc0, hc0d⟩ := hnd
          rw [List.append_nil] at ha1
          have : c0 ∈ pr.1 := by rw [← ha1]; exact hc0
          rw [hall c0 this] at hc0d
          exact Bool.noConfusion hc0d
        | cons y ys =>
          have hy : y ∈ user := by
            rw [ha1]
            exact List.mem_append.2 (Or.inr (by simp))
          rw [ha2, List.cons_append]
          rw [tryPath_cons_ne (url ++ ':' :: pr.1) y _
            (userChar_ne_slash (hu y hy))]
          exact tryTail_cons_ne (url ++ ':' :: pr.1) y _
            (userChar_ne_colon (hu y hy))
      · cases c' with
        | nil =>
          exfalso
          obtain ⟨c0, hc0, hc0d⟩ := hnd
          rw [List.append_nil] at hc1
          have : c0 ∈ pr.1 := by rw [hc1]; exact hc0
          rw [hall c0 this] at hc0d
          exact Bool.noConfusion hc0d
        | cons x xs =>
          exfalso
          have hx : x ∈ pr.1 := by
            rw [hc1]
            exact List.mem_append.2 (Or.inr (by simp))
          have hxd := hall x hx
          rw [List.cons_append] at hc2
          injection hc2 with h1 h2
          rw [← h1] at hxd
          exact absurd hxd (by decide)
  rw [hnone]
  show tryPath url (':' :: (user ++ ':' :: (pass ++ rest))) = some (url, user, pass)
  rw [tryPath_cons_ne url ':' _ (by decide)]
  exact tryTail_success url user pass rest hu1 hu hp1 hp
    (fun c cs hc => pySpace_not_passChar (hws c cs hc))

/-- `matchAt` reduction for a literal lowercase `http://` head. -/
lemma matchAt_http (s : List Char) :
    matchAt ('h' :: 't' :: 't' :: 'p' :: ':' :: '/' :: '/' :: s) =
      tryHost ['h', 't', 't', 'p', ':', '/', '/'] s := rfl

/-- `matchAt` reduction for a literal lowercase `https://` head whose
greedy scheme branch succeeds. -/
lemma matchAt_https (s : List Char) (r : List Char × List Char × List Char)
    (h : tryHost ['h', 't', 't', 'p', 's', ':', '/', '/'] s = some r) :
    matchAt ('h' :: 't' :: 't' :: 'p' :: 's' :: ':' :: '/' :: '/' :: s) = some r := by
  have hstep : matchAt ('h' :: 't' :: 't' :: 'p' :: 's' :: ':' :: '/' :: '/' :: s) =
      match tryHost ['h', 't', 't', 'p', 's', ':', '/', '/'] s with
      | some r => some r
      | none => matchSlashes ['h', 't', 't', 'p'] ('s' :: ':' :: '/' :: '/' :: s) := rfl
  rw [hstep, h]

/-- A start position whose character cannot begin the scheme never
matches. -/
lemma matchAt_not_h (c : Char) (l : List Char) (h : ¬ c.toLower = 'h') :
    matchAt (c :: l) = none := by
  rcases l with - | ⟨c2, l⟩
  · rfl
  rcases l with - | ⟨c3, l⟩
  · rfl
  rcases l with - | ⟨c4, l⟩
  · rfl
  show (if c.toLower = 'h' ∧ c2.toLower = 't' ∧ c3.toLower = 't' ∧
      c4.toLower = 'p' then
    match l with
    | c5 :: rest1 =>
      if c5.toLower = 's' then
        match matchSlashes [c, c2, c3, c4, c5] rest1 with
        | some r => some r
        | none => matchSlashes [c, c2, c3, c4] l
      else matchSlashes [c, c2, c3, c4] l
    | [] => none
  else none) = none
  rw [if_neg]
  rintro ⟨h1, -⟩
  exact h h1

/-- `re.search` skips a position where the pattern fails. -/
lemma searchCredL_cons_none (c : Char) (l : List Char)
    (h : matchAt (c :: l) = none) : searchCredL (c :: l) = searchCredL l := by
  simp only [searchCredL, h]

/-- `re.search` returns the match found at the current position. -/
lemma searchCredL_cons_some (c : Char) (l : List Char)
    (r : List Char × List Char × List Char) (h : matchAt (c :: l) = some r) :
    searchCredL (c :: l) = some r := by
  simp only [searchCredL, h]

/-- `re.search` over a prefix that cannot begin the scheme. -/
lemma searchCredL_skip (pre l : List Char)
    (hpre : ∀ c ∈ pre, ¬ c.toLower = 'h') :
    searchCredL (pre ++ l) = searchCredL l := by
  induction pre with
  | nil => simp
  | cons c pre ih =>
    rw [List.cons_append,
      searchCredL_cons_none c (pre ++ l) (matchAt_not_h c _ (hpre c (by simp)))]
    exact ih fun d hd => hpre d (by simp [hd])

/-- `(l.asString).data` inverts the packaging of a character list. -/
lemma asString_data (l : List Char) : l.asString.data = l := rfl

/-- From the boundary hypothesis to the per-head form. -/
lemma wsRest_head {rest : List Char}
    (hr : rest = [] ∨ ∃ c cs, rest = c :: cs ∧ pySpace c = true) :
    ∀ c cs, rest = c :: cs → pySpace c = true := by
  rintro c cs rfl
  rcases hr with h | ⟨d, ds, hd, hw⟩
  · cases h
  · injection hd with h1 h2
    rw [h1]
    exact hw

/-- C2.  A line made of any non-scheme prefix, the credential text
`http://host:port/path:user:pass` (host nonempty without colon, slash or
whitespace; port nonempty digits; path without whitespace; user nonempty
without colon, slash or whitespace; pass nonempty without slash,
whitespace or colon) and an end-of-line or whitespace boundary extracts
exactly (url = http://host:port/path, username = user, password =
pass). -/
theorem extraction_on_full_credential_line
    (pre host port path user pass rest : List Char)
    (hpre : ∀ c ∈ pre, ¬ c.toLower = 'h')
    (hh1 : ¬ host = []) (hh : ∀ c ∈ host, hostChar c = true)
    (hpo1 : ¬ port = []) (hpo : ∀ c ∈ port, c.isDigit = true)
    (hpa : ∀ c ∈ path, pathChar c = true)
    (hu1 : ¬ user = []) (hu : ∀ c ∈ user, userChar c = true)
    (hw1 : ¬ pass = []) (hw : ∀ c ∈ pass, passChar c = true)
    (hwc : ∀ c ∈ pass, ¬ c = ':')
    (hr : rest = [] ∨ ∃ c cs, rest = c :: cs ∧ pySpace c = true) :
    searchCred (pre ++ 'h' :: 't' :: 't' :: 'p' :: ':' :: '/' :: '/' ::
        (host ++ ':' :: (port ++ '/' ::
          (path ++ ':' :: (user ++ ':' :: (pass ++ rest)))))).asString =
      some (('h' :: 't' :: 't' :: 'p' :: ':' :: '/' :: '/' ::
          (host ++ ':' :: (port ++ '/' :: path))).asString,
        user.asString, pass.asString) := by
  have hws := wsRest_head hr
  have hport := tryPort_credential (['h', 't', 't', 'p', ':', '/', '/'] ++ host)
    port path user pass rest hpo1 hpo hpa hu1 hu hw1 hw hwc hws
  have hhost := tryHost_credential ['h', 't', 't', 'p', ':', '/', '/'] host
    (':' :: (port ++ '/' :: (path ++ ':' :: (user ++ ':' :: (pass ++ rest))))) _
    hh1 hh (by rintro c cs hc; injection hc with h1 h2; subst h1; decide) hport
  unfold searchCred
  rw [asString_data, searchCredL_skip pre _ hpre,
    searchCredL_cons_some _ _ _ (by rw [matchAt_http]; exact hhost)]
  simp [List.append_assoc]

/-- C2 witness: a concrete line with prefix text, port, path and newline
boundary. -/
theorem extraction_on_full_credential_line_witness :
    searchCred "see http://example.com:8080/dir:bob:pw\n" =
      some ("http://example.com:8080/dir", "bob", "pw") := by
  have h := extraction_on_full_credential_line "see ".data "example.com".data
    "8080".data "dir".data "bob".data "pw".data ['\n'] (by decide) (by decide)
    (by decide) (by decide) (by decide) (by decide) (by decide) (by decide)
    (by decide) (by decide) (by decide) (Or.inr ⟨'\n', [], rfl, by decide⟩)
  exact h

/-- C3 counterexample: the line `https://a.com:42:p:ss` contains, under
the documented grammar, a credential with username `42` and
colon-embedded password `p:ss`, but the regex prefers the port reading of
`42` and extracts a different triple. -/
theorem allDigit_username_parsed_as_port :
    searchCred "https://a.com:42:p:ss" = some ("https://a.com:42", "p", "ss") ∧
      ¬ searchCred "https://a.com:42:p:ss" = some ("https://a.com", "42", "p:ss") := by
  constructor
  · rfl
  · decide

/-- C3 as amended.  On a line carrying `https://host:user:pass` whose
username contains at least one non-digit character, a password embedding
colons is captured whole (greedily up to the next slash, whitespace or
end), while the username can never contain a colon; the all-digit
username case is excluded because the port alternative consumes it. -/
theorem extraction_with_colon_password
    (pre host user pass rest : List Char)
    (hpre : ∀ c ∈ pre, ¬ c.toLower = 'h')
    (hh1 : ¬ host = []) (hh : ∀ c ∈ host, hostChar c = true)
    (hu1 : ¬ user = []) (hu : ∀ c ∈ user, userChar c = true)
    (hnd : ∃ c ∈ user, c.isDigit = false)
    (hw1 : ¬ pass = []) (hw : ∀ c ∈ pass, passChar c = true)
    (_hcol : ':' ∈ pass)
    (hr : rest = [] ∨ ∃ c cs, rest = c :: cs ∧ pySpace c = true) :
    searchCred (pre ++ 'h' :: 't' :: 't' :: 'p' :: 's' :: ':' :: '/' :: '/' ::
        (host ++ ':' :: (user ++ ':' :: (pass ++ rest)))).asString =
      some (('h' :: 't' :: 't' :: 'p' :: 's' :: ':' :: '/' :: '/' :: host).asString,
        user.asString, pass.asString) := by
  have hws := wsRest_head hr
  have hport := tryPort_no_port (['h', 't', 't', 'p', 's', ':', '/', '/'] ++ host)
    user pass rest hu1 hu hnd hw1 hw hws
  have hhost := tryHost_credential ['h', 't', 't', 'p', 's', ':', '/', '/'] host
    (':' :: (user ++ ':' :: (pass ++ rest))) _ hh1 hh
    (by rintro c cs hc; injection hc with h1 h2; subst h1; decide) hport
  unfold searchCred
  rw [asString_data, searchCredL_skip pre _ hpre,
    searchCredL_cons_some _ _ _ (matchAt_https _ _ hhost)]
  simp

/-- C3 amended witness: the example shape with a non-digit username. -/
theorem extraction_with_colon_password_witness :
    searchCred "https://a.com:bob:p:ss" = some ("https://a.com", "bob", "p:ss") := by
  have h := extraction_with_colon_password [] "a.com".data "bob".data
    "p:ss".data [] (by decide) (by decide) (by decide) (by decide) (by decide)
    (by decide) (by decide) (by decide) (by decide) (Or.inl rfl)
  exact h

/-! ## C9: json round trip

Facts about the decimal and escape encodings, then the round trip of the
written document. -/

/-- Decimal digit characters are digits. -/
lemma digit_char_isDigit (k : Nat) (h : k < 10) :
    (Char.ofNat (48 + k)).isDigit = true := by
  interval_cases k <;> decide

/-- Value of a decimal digit character. -/
lemma digit_char_toNat (k : Nat) (h : k < 10) :
    (Char.ofNat (48 + k)).toNat - 48 = k := by
  interval_cases k <;> decide

/-- Decimal digit characters are not whitespace. -/
lemma digit_char_not_ws {c : Char} (h : c.isDigit = true) : wsChar c = false := by
  rcases hw : wsChar c
  · rfl
  · exfalso
    simp [wsChar] at hw
    rcases hw with (((rfl | rfl) | rfl) | rfl) <;> simp [Char.isDigit] at h

/-- `unhex` decodes the written hexadecimal digit. -/
lemma unhex_hexDigit (k : Nat) (h : k < 16) : unhex (hexDigit k) = some k := by
  interval_cases k <;> decide

/-- The decimal writer never yields an empty list. -/
lemma natToChars_ne_nil (n : Nat) : ¬ natToChars n = [] := by
  unfold natToChars
  split <;> simp

/-- Every written decimal character is a digit. -/
lemma natToChars_digits (n : Nat) : ∀ c ∈ natToChars n, c.isDigit = true := by
  induction n using Nat.strong_induction_on with
  | _ n ih =>
    unfold natToChars
    split
    · intro c hc
      rcases List.mem_singleton.1 hc with rfl
      exact digit_char_isDigit n (by omega)
    · rename_i h
      intro c hc
      rcases List.mem_append.1 hc with h1 | h1
      · exact ih (n / 10) (Nat.div_lt_self (by omega) (by omega)) c h1
      · rcases List.mem_singleton.1 h1 with rfl
        exact digit_char_isDigit (n % 10) (Nat.mod_lt _ (by omega))

/-- Folding the digit-accumulation over a written decimal recovers the
number (with the accumulator shifted by the digit count). -/
lemma foldl_natToChars (n : Nat) : ∀ acc : Nat,
    (natToChars n).foldl (fun a c => a * 10 + (c.toNat - 48)) acc =
      acc * 10 ^ (natToChars n).length + n := by
  induction n using Nat.strong_induction_on with
  | _ n ih =>
    intro acc
    unfold natToChars
    split
    · rename_i h
      simp [List.foldl, digit_char_toNat n (by omega)]
    · rename_i h
      rw [List.foldl_append]
      rw [ih (n / 10) (Nat.div_lt_self (by omega) (by omega)) acc]
      simp [List.foldl, digit_char_toNat (n % 10) (Nat.mod_lt _ (by omega))]
      rw [Nat.pow_succ]
      have := Nat.div_add_mod n 10
      ring_nf
      ring_nf at this
      omega

/-- `parseNatAux` consumes exactly a digit run. -/
lemma parseNatAux_run (ds : List Char) :
    ∀ acc (rest : List Char), (∀ c ∈ ds, c.isDigit = true) →
      (∀ c cs, rest = c :: cs → c.isDigit = false) →
      parseNatAux acc (ds ++ rest) =
        (ds.foldl (fun a c => a * 10 + (c.toNat - 48)) acc, rest) := by
  induction ds with
  | nil =>
    intro acc rest _ hrest
    cases hr : rest with
    | nil => simp [parseNatAux]
    | cons c cs =>
      simp only [List.nil_append, List.foldl, hr, parseNatAux, hrest c cs hr,
        Bool.false_eq_true, if_false]
  | cons d ds ih =>
    intro acc rest hds hrest
    simp only [List.cons_append, parseNatAux, hds d (by simp), if_true,
      List.foldl]
    exact ih _ rest (fun c hc => hds c (by simp [hc])) hrest

/-- `parseNum` inverts the decimal writer. -/
lemma parseNum_natToChars (n : Nat) (rest : List Char)
    (hrest : ∀ c cs, rest = c :: cs → c.isDigit = false) :
    parseNum (natToChars n ++ rest) = some (n, rest) := by
  cases hn : natToChars n with
  | nil => exact absurd hn (natToChars_ne_nil n)
  | cons d ds =>
    have hd : d.isDigit = true := natToChars_digits n d (by rw [hn]; simp)
    have hds : ∀ c ∈ ds, c.isDigit = true := fun c hc =>
      natToChars_digits n c (by rw [hn]; simp [hc])
    simp only [List.cons_append, parseNum, hd, if_true]
    rw [parseNatAux_run ds (d.toNat - 48) rest hds hrest]
    have hfold : (d :: ds).foldl (fun a c => a * 10 + (c.toNat - 48)) 0 = n := by
      rw [← hn, foldl_natToChars n 0]
      simp
    simp only [List.foldl, Nat.zero_mul, Nat.zero_add] at hfold
    rw [hfold]

/-- `skipWs` drops an all-whitespace prefix. -/
lemma skipWs_append_ws (ws l : List Char) (h : ∀ c ∈ ws, wsChar c = true) :
    skipWs (ws ++ l) = skipWs l := by
  induction ws with
  | nil => rfl
  | cons c ws ih =>
    rw [List.cons_append]
    simp only [skipWs, h c (by simp), if_true]
    exact ih fun d hd => h d (by simp [hd])

/-- `skipWs` stops at a non-whitespace character. -/
lemma skipWs_not_ws (c : Char) (l : List Char) (h : wsChar c = false) :
    skipWs (c :: l) = c :: l := by
  simp [skipWs, h]

/-- Arm equations of `escapeChar` by character class. -/
lemma escapeChar_ctrl (c : Char) (h1 : ¬ c = '"') (h2 : ¬ c = '\\')
    (h3 : ¬ c = '\n') (h4 : ¬ c = '\t') (h5 : ¬ c = '\r')
    (h6 : ¬ c = '\x08') (h7 : ¬ c = '\x0c') (h8 : c.toNat < 32) :
    escapeChar c =
      ['\\', 'u', '0', '0', hexDigit (c.toNat / 16), hexDigit (c.toNat % 16)] := by
  unfold escapeChar
  rw [if_neg h1, if_neg h2, if_neg h3, if_neg h4, if_neg h5, if_neg h6,
    if_neg h7, if_pos h8]

/-- An ordinary character is written raw. -/
lemma escapeChar_plain (c : Char) (h1 : ¬ c = '"') (h2 : ¬ c = '\\')
    (h8 : ¬ c.toNat < 32) : escapeChar c = [c] := by
  have h3 : ¬ c = '\n' := by rintro rfl; exact h8 (by decide)
  have h4 : ¬ c = '\t' := by rintro rfl; exact h8 (by decide)
  have h5 : ¬ c = '\r' := by rintro rfl; exact h8 (by decide)
  have h6 : ¬ c = '\x08' := by rintro rfl; exact h8 (by decide)
  have h7 : ¬ c = '\x0c' := by rintro rfl; exact h8 (by decide)
  unfold escapeChar
  rw [if_neg h1, if_neg h2, if_neg h3, if_neg h4, if_neg h5, if_neg h6,
    if_neg h7, if_neg h8]

/-- Arm equation of `parseStrBody` on a one-letter escape. -/
lemma parseStrBody_esc (e : Char) (l : List Char) (hu : ¬ e = 'u')
    (c : Char) (hc : escCode e = some c) :
    parseStrBody ('\\' :: e :: l) =
      (parseStrBody l).map fun pr => (c :: pr.1, pr.2) := by
  conv_lhs => unfold parseStrBody
  split
  · rename_i heq
    exact absurd heq (by simp)
  · rename_i cs heq
    injection heq with hh1 hh2
    exact absurd hh1 (by decide)
  · rename_i e2 cs heq
    injection heq with hh1 hh2
    injection hh2 with hh3 hh4
    rw [← hh3, ← hh4, if_neg hu, hc]
  · rename_i c2 cs hx hxs heq
    injection heq with hh1 hh2
    exact absurd (hxs e l hh1.symm hh2.symm) not_false

/-- Arm equation of `parseStrBody` on a `\u` escape. -/
lemma parseStrBody_u (h1 h2 h3 h4 : Char) (l : List Char) :
    parseStrBody ('\\' :: 'u' :: h1 :: h2 :: h3 :: h4 :: l) =
      match unhex h1, unhex h2, unhex h3, unhex h4 with
      | some a, some b, some c, some d =>
        (parseStrBody l).map fun pr =>
          (Char.ofNat (((a * 16 + b) * 16 + c) * 16 + d) :: pr.1, pr.2)
      | _, _, _, _ => none := rfl

/-- Arm equation of `parseStrBody` on an unescaped character. -/
lemma parseStrBody_plain (c : Char) (l : List Char) (h1 : ¬ c = '"')
    (h2 : ¬ c = '\\') :
    parseStrBody (c :: l) = (parseStrBody l).map fun pr => (c :: pr.1, pr.2) := by
  conv_lhs => unfold parseStrBody
  split
  · rename_i heq
    exact absurd heq (by simp)
  · rename_i cs heq
    injection heq with hh1 hh2
    exact absurd hh1 h1
  · rename_i e2 cs heq
    injection heq with hh1 hh2
    exact absurd hh1 h2
  · rename_i c2 cs hx hxs heq
    injection heq with hh1 hh2
    rw [← hh1, ← hh2]

/-- Parsing inverts the string escaping: the body parser recovers the
original characters and stops exactly at the closing quote. -/
lemma parseStrBody_escape (s : List Char) : ∀ rest : List Char,
    parseStrBody (escapeString s ++ '"' :: rest) = some (s, rest) := by
  induction s with
  | nil => intro rest; rfl
  | cons c cs ih =>
    intro rest
    show parseStrBody ((escapeChar c ++ escapeString cs) ++ '"' :: rest) =
      some (c :: cs, rest)
    rw [List.append_assoc]
    have hesc : ∀ e : Char, ¬ e = 'u' → escCode e = some c →
        escapeChar c = ['\\', e] →
        parseStrBody (escapeChar c ++ (escapeString cs ++ '"' :: rest)) =
          some (c :: cs, rest) := by
      intro e hne hcode hch
      rw [hch, List.cons_append, List.cons_append, List.nil_append,
        parseStrBody_esc e _ hne c hcode, ih rest]
      rfl
    by_cases h1 : c = '"'
    · subst h1
      exact hesc '"' (by decide) rfl rfl
    by_cases h2 : c = '\\'
    · subst h2
      exact hesc '\\' (by decide) rfl rfl
    by_cases h3 : c = '\n'
    · subst h3
      exact hesc 'n' (by decide) rfl rfl
    by_cases h4 : c = '\t'
    · subst h4
      exact hesc 't' (by decide) rfl rfl
    by_cases h5 : c = '\r'
    · subst h5
      exact hesc 'r' (by decide) rfl rfl
    by_cases h6 : c = '\x08'
    · subst h6
      exact hesc 'b' (by decide) rfl rfl
    by_cases h7 : c = '\x0c'
    · subst h7
      exact hesc 'f' (by decide) rfl rfl
    by_cases h8 : c.toNat < 32
    · rw [escapeChar_ctrl c h1 h2 h3 h4 h5 h6 h7 h8, List.cons_append,
        List.cons_append, List.cons_append, List.cons_append, List.cons_append,
        List.singleton_append, parseStrBody_u]
      rw [show unhex '0' = some 0 from rfl,
        unhex_hexDigit (c.toNat / 16) (by omega),
        unhex_hexDigit (c.toNat % 16) (Nat.mod_lt _ (by omega))]
      show (parseStrBody (escapeString cs ++ '"' :: rest)).map
          (fun pr =>
            (Char.ofNat (((0 * 16 + 0) * 16 + c.toNat / 16) * 16 + c.toNat % 16)
              :: pr.1, pr.2)) =
        some (c :: cs, rest)
      have harith : ((0 * 16 + 0) * 16 + c.toNat / 16) * 16 + c.toNat % 16 =
          c.toNat := by omega
      rw [ih rest, harith, Char.ofNat_toNat]
      rfl
    · rw [escapeChar_plain c h1 h2 h8, List.singleton_append,
        parseStrBody_plain c _ h1 h2, ih rest]
      rfl

/-- `skipWs` single-character reductions used by the round trip. -/
lemma skipWs_space (l : List Char) : skipWs (' ' :: l) = skipWs l := rfl

/-- `skipWs` passes a newline. -/
lemma skipWs_nl (l : List Char) : skipWs ('\n' :: l) = skipWs l := rfl

/-- `skipWs` stops at a quote. -/
lemma skipWs_quote (l : List Char) : skipWs ('"' :: l) = '"' :: l := rfl

/-- `skipWs` stops at a colon. -/
lemma skipWs_colon (l : List Char) : skipWs (':' :: l) = ':' :: l := rfl

/-- `skipWs` stops at a comma. -/
lemma skipWs_comma (l : List Char) : skipWs (',' :: l) = ',' :: l := rfl

/-- `skipWs` stops at an opening brace. -/
lemma skipWs_lbrace (l : List Char) : skipWs ('\x7b' :: l) = '\x7b' :: l := rfl

/-- `skipWs` stops at a closing brace. -/
lemma skipWs_rbrace (l : List Char) : skipWs ('\x7d' :: l) = '\x7d' :: l := rfl

/-- `skipWs` stops at a closing bracket. -/
lemma skipWs_rbracket (l : List Char) : skipWs (']' :: l) = ']' :: l := rfl

/-- `skipWs` stops at an opening bracket. -/
lemma skipWs_lbracket (l : List Char) : skipWs ('[' :: l) = '[' :: l := rfl

/-- Repackaging a string's characters gives the string back. -/
lemma data_asString (s : String) : s.data.asString = s := rfl

/-- `parseJVal` on a quote parses a string value. -/
lemma parseJVal_quote (cs : List Char) :
    parseJVal ('"' :: cs) =
      (parseStrBody cs).map fun pr => (JVal.s pr.1.asString, pr.2) := rfl

/-- `parseJVal` on a non-quote parses a number. -/
lemma parseJVal_not_quote (c : Char) (l : List Char) (h : ¬ c = '"') :
    parseJVal (c :: l) = (parseNum (c :: l)).map fun pr => (JVal.n pr.1, pr.2) := by
  unfold parseJVal
  split
  · rename_i heq
    injection heq with hh1 hh2
    exact absurd hh1 h
  · rfl

/-- Parsing the written value after the `": "` separator space. -/
lemma parseJVal_write (v : JVal) (rest : List Char)
    (hrest : ∀ c cs2, rest = c :: cs2 → c.isDigit = false) :
    parseJVal (skipWs (' ' :: (writeJVal v ++ rest))) = some (v, rest) := by
  rw [skipWs_space]
  cases v with
  | s str =>
    have h1 : writeJVal (JVal.s str) ++ rest =
        '"' :: (escapeString str.data ++ '"' :: rest) := by
      simp [writeJVal, jstr]
    rw [h1, skipWs_quote, parseJVal_quote, parseStrBody_escape str.data rest]
    simp [data_asString]
  | n m =>
    have h1 : writeJVal (JVal.n m) ++ rest = natToChars m ++ rest := rfl
    rw [h1]
    cases hn : natToChars m with
    | nil => exact absurd hn (natToChars_ne_nil m)
    | cons d ds =>
      have hd : d.isDigit = true := natToChars_digits m d (by rw [hn]; simp)
      rw [List.cons_append, skipWs_not_ws d _ (digit_char_not_ws hd),
        parseJVal_not_quote d _ (by rintro rfl; simp [Char.isDigit] at hd),
        ← List.cons_append, ← hn, parseNum_natToChars m rest hrest]
      rfl

/-- Reduction of `parseMember` once the key quote is reached. -/
lemma parseMember_red (s cs : List Char) (hsk : skipWs s = '"' :: cs) :
    parseMember s =
      match parseStrBody cs with
      | some (k, r1) =>
        match skipWs r1 with
        | ':' :: r2 =>
          match parseJVal (skipWs r2) with
          | some (v, r3) => some ((k.asString, v), r3)
          | none => none
        | _ => none
      | none => none := by
  unfold parseMember
  rw [hsk]
  rfl

/-- Parsing inverts one written member line. -/
lemma parseMember_line (key : String) (v : JVal) (rest : List Char)
    (hrest : ∀ c cs2, rest = c :: cs2 → c.isDigit = false) :
    parseMember (memberLine (key, v) ++ rest) = some ((key, v), rest) := by
  have h0 : skipWs (memberLine (key, v) ++ rest) =
      '"' :: (escapeString key.data ++
        '"' :: (':' :: (' ' :: (writeJVal v ++ rest)))) := by
    simp only [memberLine, jstr, ind8, List.append_assoc, List.cons_append,
      List.singleton_append, List.nil_append]
    rw [skipWs_space, skipWs_space, skipWs_space, skipWs_space, skipWs_space,
      skipWs_space, skipWs_space, skipWs_space, skipWs_quote]
  rw [parseMember_red _ _ h0, parseStrBody_escape key.data]
  simp only [skipWs_colon, parseJVal_write v rest hrest, data_asString]

/-- `parseMember` ignores leading whitespace. -/
lemma parseMember_pre (ws l : List Char) (h : ∀ c ∈ ws, wsChar c = true) :
    parseMember (ws ++ l) = parseMember l := by
  unfold parseMember
  rw [skipWs_append_ws ws l h]

/-- Unfolding of `parseMembers` with positive fuel. -/
lemma parseMembers_succ (f : Nat) (s : List Char) :
    parseMembers (f + 1) s =
      match parseMember s with
      | some (m, r1) =>
        match skipWs r1 with
        | ',' :: r2 =>
          match parseMembers f r2 with
          | some (ms, r3) => some (m :: ms, r3)
          | none => none
        | '\x7d' :: r2 => some ([m], r2)
        | _ => none
      | none => none := rfl

/-- Skipping the newline and closing indentation before a delimiter. -/
lemma skipWs_nl_ind4 (c : Char) (l : List Char) (h : wsChar c = false) :
    skipWs ('\n' :: (ind4 ++ c :: l)) = c :: l := by
  rw [skipWs_nl]
  simp only [ind4, List.cons_append, List.nil_append]
  rw [skipWs_space, skipWs_space, skipWs_space, skipWs_space,
    skipWs_not_ws c l h]

/-- Parsing inverts the written member list of a nonempty object. -/
lemma parseMembers_write (ms : List (String × JVal)) :
    ∀ fuel (ws rest : List Char), ¬ ms = [] →
      (∀ c ∈ ws, wsChar c = true) →
      ms.length ≤ fuel →
      parseMembers fuel
          (ws ++ (writeMembersList ms ++ '\n' :: (ind4 ++ '\x7d' :: rest))) =
        some (ms, rest) := by
  induction ms with
  | nil =>
    intro fuel ws rest hne _ _
    exact absurd rfl hne
  | cons m ms ih =>
    intro fuel ws rest _ hws hfuel
    cases fuel with
    | zero => simp at hfuel
    | succ f =>
      obtain ⟨key, v⟩ := m
      cases ms with
      | nil =>
        have hm : parseMember
            (ws ++ (writeMembersList [(key, v)] ++ '\n' :: (ind4 ++ '\x7d' :: rest))) =
            some ((key, v), '\n' :: (ind4 ++ '\x7d' :: rest)) := by
          rw [parseMember_pre ws _ hws]
          exact parseMember_line key v ('\n' :: (ind4 ++ '\x7d' :: rest))
            (by rintro c cs2 hh; injection hh with hh1 hh2; subst hh1; decide)
        rw [parseMembers_succ]
        simp only [hm, skipWs_nl_ind4 '\x7d' rest (by decide)]
      | cons m2 ms2 =>
        have hshape : writeMembersList ((key, v) :: m2 :: ms2) ++
            '\n' :: (ind4 ++ '\x7d' :: rest) =
            memberLine (key, v) ++ ',' ::
              ('\n' :: (writeMembersList (m2 :: ms2) ++
                '\n' :: (ind4 ++ '\x7d' :: rest))) := by
          show (memberLine (key, v) ++ ',' :: '\n' :: writeMembersList (m2 :: ms2)) ++
              '\n' :: (ind4 ++ '\x7d' :: rest) = _
          simp [List.append_assoc]
        have hm : parseMember
            (ws ++ (writeMembersList ((key, v) :: m2 :: ms2) ++
              '\n' :: (ind4 ++ '\x7d' :: rest))) =
            some ((key, v), ',' ::
              ('\n' :: (writeMembersList (m2 :: ms2) ++
                '\n' :: (ind4 ++ '\x7d' :: rest)))) := by
          rw [parseMember_pre ws _ hws, hshape]
          exact parseMember_line key v _
            (by rintro c cs2 hh; injection hh with hh1 hh2; subst hh1; decide)
        rw [parseMembers_succ]
        simp only [hm, skipWs_comma]
        have hrec := ih f ['\n']
          rest (by simp) (by intro c hc; rcases List.mem_singleton.1 hc with rfl; rfl)
          (by simp at hfuel ⊢; omega)
        simp only [List.singleton_append] at hrec
        simp only [hrec]

/-- The member list of a record decodes back to the record. -/
lemma decodeRec_recMembers (r : Rec) : decodeRec (recMembers r) = some r := by
  cases r <;> rfl

/-- A record dict is never empty. -/
lemma recMembers_ne_nil (r : Rec) : ¬ recMembers r = [] := by
  cases r <;> simp [recMembers]

/-- A record dict has at most five members. -/
lemma recMembers_length_le (r : Rec) : (recMembers r).length ≤ 5 := by
  cases r <;> simp [recMembers]

/-- Reduction of `parseObj` once the opening brace is reached. -/
lemma parseObj_red (fuel : Nat) (s cs : List Char)
    (hsk : skipWs s = '\x7b' :: cs) :
    parseObj fuel s =
      match parseMembers fuel cs with
      | some (ms, r1) =>
        match decodeRec ms with
        | some r => some (r, r1)
        | none => none
      | none => none := by
  unfold parseObj
  rw [hsk]
  rfl

/-- `ind4` is all whitespace. -/
lemma ind4_ws : ∀ c ∈ ind4, wsChar c = true := by decide

/-- Parsing inverts one written object. -/
lemma parseObj_write (r : Rec) (fuel : Nat) (ws rest : List Char)
    (hws : ∀ c ∈ ws, wsChar c = true) (hfuel : 5 ≤ fuel) :
    parseObj fuel (ws ++ (writeObj r ++ rest)) = some (r, rest) := by
  have hnorm : writeObj r ++ rest =
      ind4 ++ ('\x7b' :: ('\n' :: (writeMembersList (recMembers r) ++
        '\n' :: (ind4 ++ '\x7d' :: rest)))) := by
    simp [writeObj, List.append_assoc]
  have hsk : skipWs (ws ++ (writeObj r ++ rest)) =
      '\x7b' :: ('\n' :: (writeMembersList (recMembers r) ++
        '\n' :: (ind4 ++ '\x7d' :: rest))) := by
    rw [skipWs_append_ws ws _ hws, hnorm, skipWs_append_ws ind4 _ ind4_ws,
      skipWs_lbrace]
  rw [parseObj_red fuel _ _ hsk]
  have hmem := parseMembers_write (recMembers r) fuel ['\n'] rest
    (recMembers_ne_nil r)
    (by intro c hc; rcases List.mem_singleton.1 hc with rfl; rfl)
    (le_trans (recMembers_length_le r) hfuel)
  simp only [List.singleton_append] at hmem
  simp only [hmem, decodeRec_recMembers]

/-- Unfolding of `parseItems` with positive fuel. -/
lemma parseItems_succ (f : Nat) (s : List Char) :
    parseItems (f + 1) s =
      match parseObj f s with
      | some (r, r1) =>
        match skipWs r1 with
        | ',' :: r2 =>
          match parseItems f r2 with
          | some (rs, r3) => some (r :: rs, r3)
          | none => none
        | ']' :: r2 => some ([r], r2)
        | _ => none
      | none => none := rfl

/-- Parsing inverts the written item list of a nonempty array. -/
lemma parseItems_write (rs : List Rec) :
    ∀ fuel (ws rest : List Char), ¬ rs = [] →
      (∀ c ∈ ws, wsChar c = true) →
      rs.length + 5 ≤ fuel →
      parseItems fuel (ws ++ (writeItems rs ++ '\n' :: ']' :: rest)) =
        some (rs, rest) := by
  induction rs with
  | nil =>
    intro fuel ws rest hne _ _
    exact absurd rfl hne
  | cons r rs ih =>
    intro fuel ws rest _ hws hfuel
    cases fuel with
    | zero => simp at hfuel
    | succ f =>
      cases rs with
      | nil =>
        have hobj : parseObj f
            (ws ++ (writeItems [r] ++ '\n' :: ']' :: rest)) =
            some (r, '\n' :: ']' :: rest) := by
          show parseObj f (ws ++ (writeObj r ++ '\n' :: ']' :: rest)) = _
          exact parseObj_write r f ws ('\n' :: ']' :: rest) hws (by simp at hfuel; omega)
        rw [parseItems_succ]
        simp only [hobj, skipWs_nl, skipWs_rbracket]
      | cons r2 rs2 =>
        have hshape : writeItems (r :: r2 :: rs2) ++ '\n' :: ']' :: rest =
            writeObj r ++ ',' ::
              ('\n' :: (writeItems (r2 :: rs2) ++ '\n' :: ']' :: rest)) := by
          show (writeObj r ++ ',' :: '\n' :: writeItems (r2 :: rs2)) ++
              '\n' :: ']' :: rest = _
          simp [List.append_assoc]
        have hobj : parseObj f
            (ws ++ (writeItems (r :: r2 :: rs2) ++ '\n' :: ']' :: rest)) =
            some (r, ',' ::
              ('\n' :: (writeItems (r2 :: rs2) ++ '\n' :: ']' :: rest))) := by
          rw [hshape]
          exact parseObj_write r f ws _ hws (by simp at hfuel; omega)
        rw [parseItems_succ]
        simp only [hobj, skipWs_comma]
        have hrec := ih f ['\n'] rest (by simp)
          (by intro c hc; rcases List.mem_singleton.1 hc with rfl; rfl)
          (by simp at hfuel ⊢; omega)
        simp only [List.singleton_append] at hrec
        simp only [hrec]

/-- Every written object is at least twelve characters long. -/
lemma writeObj_len (r : Rec) : 12 ≤ (writeObj r).length := by
  simp [writeObj, ind4]

/-- The written item list dominates the record count. -/
lemma writeItems_len (rs : List Rec) (h : ¬ rs = []) :
    rs.length + 11 ≤ (writeItems rs).length := by
  induction rs with
  | nil => exact absurd rfl h
  | cons r rs ih =>
    cases rs with
    | nil =>
      show 1 + 11 ≤ (writeObj r).length
      exact le_trans (by omega) (writeObj_len r)
    | cons r2 rs2 =>
      show (r2 :: rs2).length + 1 + 11 ≤
        (writeObj r ++ ',' :: '\n' :: writeItems (r2 :: rs2)).length
      have h1 := writeObj_len r
      have h2 := ih (by simp)
      simp only [List.length_append, List.length_cons] at h1 h2 ⊢
      omega

/-- The head of the written item list after leading whitespace is an
opening brace. -/
lemma writeItems_cons_norm (r : Rec) (rs : List Rec) (tail : List Char) :
    ∃ Z : List Char, writeItems (r :: rs) ++ tail = ind4 ++ ('\x7b' :: Z) := by
  cases rs with
  | nil =>
    refine ⟨'\n' :: (writeMembersList (recMembers r) ++
      '\n' :: (ind4 ++ '\x7d' :: tail)), ?_⟩
    show writeObj r ++ tail = _
    simp [writeObj, List.append_assoc]
  | cons r2 rs2 =>
    refine ⟨'\n' :: (writeMembersList (recMembers r) ++
      '\n' :: (ind4 ++ '\x7d' ::
        (',' :: ('\n' :: (writeItems (r2 :: rs2) ++ tail))))), ?_⟩
    show (writeObj r ++ ',' :: '\n' :: writeItems (r2 :: rs2)) ++ tail = _
    simp [writeObj, List.append_assoc]

/-- Parsing the written document recovers the record list. -/
lemma jsonParse_dump (rs : List Rec) : jsonParse (jsonDump rs) = some rs := by
  cases rs with
  | nil => rfl
  | cons r rs =>
    obtain ⟨Z, hZ⟩ := writeItems_cons_norm r rs ('\n' :: (']' :: []))
    have hdata : (jsonDump (r :: rs)).data =
        '[' :: ('\n' :: (writeItems (r :: rs) ++ '\n' :: (']' :: []))) := by
      show jsonDumpL (r :: rs) = _
      show ('[' :: '\n' :: writeItems (r :: rs)) ++ '\n' :: [']'] = _
      simp
    have hsk2 : skipWs ('\n' :: (writeItems (r :: rs) ++ '\n' :: (']' :: []))) =
        '\x7b' :: Z := by
      rw [skipWs_nl, hZ, skipWs_append_ws ind4 _ ind4_ws, skipWs_lbrace]
    have hitems : parseItems ((jsonDump (r :: rs)).data.length + 1)
        ('\n' :: (writeItems (r :: rs) ++ '\n' :: (']' :: []))) =
        some (r :: rs, []) := by
      have hflen : (r :: rs).length + 5 ≤ (jsonDump (r :: rs)).data.length + 1 := by
        rw [hdata]
        have := writeItems_len (r :: rs) (by simp)
        simp only [List.length_cons, List.length_append] at this ⊢
        omega
      have := parseItems_write (r :: rs) ((jsonDump (r :: rs)).data.length + 1)
        ['\n'] [] (by simp)
        (by intro c hc; rcases List.mem_singleton.1 hc with rfl; rfl) hflen
      simpa using this
    unfold jsonParse
    rw [hdata] at hitems ⊢
    rw [skipWs_lbracket]
    simp only [hsk2, hitems]
    rfl

/-- C9.  Writing a scan result consisting of match records with the json
writer and parsing the written text back yields the same records, field
for field. -/
theorem json_round_trip (results : List Rec)
    (_hm : ∀ r ∈ results, r.isMatchRec = true) :
    jsonParse (jsonDump results) = some results :=
  jsonParse_dump results

/-- C9 witness: two concrete match records survive the round trip. -/
theorem json_round_trip_witness :
    (∀ r ∈ [Rec.matchRec "http://a.com" "u" "p:w" "/tmp/x y.txt" 3,
        Rec.matchRec "https://b.org/x" "u\"2\\" "p2" "g.txt" 12045],
      r.isMatchRec = true) ∧
      jsonParse (jsonDump
          [Rec.matchRec "http://a.com" "u" "p:w" "/tmp/x y.txt" 3,
           Rec.matchRec "https://b.org/x" "u\"2\\" "p2" "g.txt" 12045]) =
        some [Rec.matchRec "http://a.com" "u" "p:w" "/tmp/x y.txt" 3,
          Rec.matchRec "https://b.org/x" "u\"2\\" "p2" "g.txt" 12045] := by
  constructor
  · decide
  · exact json_round_trip
      [Rec.matchRec "http://a.com" "u" "p:w" "/tmp/x y.txt" 3,
       Rec.matchRec "https://b.org/x" "u\"2\\" "p2" "g.txt" 12045]
      (by decide)
